import Mathlib

/-! # UTF-8 codec (`utf-8.c`, `utf-8.h`): a shallow embedding and its properties

The C functions `num_of_units`, `encode`, `valid`, `length_of`, `decode`, `read` and `write` are
translated to Lean functions of the same names.

Conventions of the embedding:

* an octet (`uint8_t`) is a `Fin 256`; a code point (`uint32_t`) and a length (`size_t`) are
  natural numbers, with explicit truncation (`u8`, `u32`) at the assignments of the source;
* a function with an uninitialised local (`enc_unit_t enc_unit;`) takes the indeterminate
  initial content of that local as an argument;
* a function that can perform an out-of-bounds access returns an `Option`, and `none` stands for
  that undefined behaviour; every other outcome of the C function is a `some`.
-/

namespace Utf8

/-- An octet, the C type `uint8_t`. -/
abbrev Octet := Fin 256

/-- Conversion to `uint8_t`, as done by an assignment to an element of `units`. -/
def u8 (x : Nat) : Octet := ⟨x % 256, Nat.mod_lt x (by decide)⟩

/-- Conversion to `uint32_t`. -/
def u32 (x : Nat) : Nat := x % 4294967296

/-! ## Constants of `utf-8.c` and `utf-8.h` -/

def UNIT11 : Nat := 0x00
def UNIT12 : Nat := 0xC0
def UNIT13 : Nat := 0xE0
def UNIT14 : Nat := 0xF0
def UNITX : Nat := 0x80

def MASK11 : Nat := 0x7F
def MASK12 : Nat := 0x1F
def MASK13 : Nat := 0x0F
def MASK14 : Nat := 0x07
def MASKX : Nat := 0x3F

def MLEN11 : Nat := 7
def MLEN12 : Nat := 5
def MLEN13 : Nat := 4
def MLEN14 : Nat := 3
def MLENX : Nat := 6

def PRE_VAL11 : Nat := 0x00
def PRE_VAL12 : Nat := 0x06
def PRE_VAL13 : Nat := 0x0E
def PRE_VAL14 : Nat := 0x1E
def PRE_VALX : Nat := 0x02

def MAX_BUFFER_SIZE : Nat := 536870912

def INVALID_CODE_POINT : Nat := 0xFFFFFFFF

/-! ## Data model -/

/-- The struct `enc_unit_t`: the array `uint8_t units[4]` (its four elements are the fields
`units0` .. `units3`) and the length `size_t len`. -/
structure enc_unit_t where
  units0 : Octet
  units1 : Octet
  units2 : Octet
  units3 : Octet
  len : Nat
  deriving DecidableEq, Repr

/-- The read `enc_unit->units[i]`. The array has four elements: an index outside it is an
out-of-bounds read, `none`. -/
def enc_unit_t.units (enc_unit : enc_unit_t) : Nat → Option Octet
  | 0 => some enc_unit.units0
  | 1 => some enc_unit.units1
  | 2 => some enc_unit.units2
  | 3 => some enc_unit.units3
  | _ => none

/-- The four octets of the array `units`, in order. -/
def enc_unit_t.octets (enc_unit : enc_unit_t) : List Octet :=
  [enc_unit.units0, enc_unit.units1, enc_unit.units2, enc_unit.units3]

/-! ## Range classifier, encoder, validator, decoder -/

/-- The function `num_of_units` of `utf-8.c`. -/
def num_of_units (code_point : Nat) : Nat :=
  if code_point ≤ 0x00007F then 1
  else if code_point ≥ 0x00080 ∧ code_point ≤ 0x0007FF then 2
  else if code_point ≥ 0x0D800 ∧ code_point ≤ 0x00DFFF then 0
  else if code_point ≥ 0x00800 ∧ code_point ≤ 0x00FFFF then 3
  else if code_point ≥ 0x10000 ∧ code_point ≤ 0x10FFFF then 4
  else 0

/-- The function `encode` of `utf-8.c`. The argument `enc_unit` is the indeterminate content of
the local `enc_unit_t enc_unit;` before its fields are assigned: the octets that the selected
`case` does not assign keep it. -/
def encode (enc_unit : enc_unit_t) (code_point : Nat) : enc_unit_t :=
  let enc_unit := { enc_unit with len := num_of_units code_point }
  match enc_unit.len with
  | 1 =>
    { enc_unit with units0 := u8 code_point }
  | 2 =>
    let enc_unit := { enc_unit with units1 := u8 (UNITX ||| (code_point &&& MASKX)) }
    { enc_unit with units0 := u8 (UNIT12 ||| ((code_point >>> MLENX) &&& MASK12)) }
  | 3 =>
    let enc_unit := { enc_unit with units2 := u8 (UNITX ||| (code_point &&& MASKX)) }
    let enc_unit := { enc_unit with units1 := u8 (UNITX ||| ((code_point >>> MLENX) &&& MASKX)) }
    { enc_unit with units0 := u8 (UNIT13 ||| ((code_point >>> MLENX >>> MLENX) &&& MASK13)) }
  | 4 =>
    let enc_unit := { enc_unit with units3 := u8 (UNITX ||| (code_point &&& MASKX)) }
    let enc_unit := { enc_unit with units2 := u8 (UNITX ||| ((code_point >>> MLENX) &&& MASKX)) }
    let enc_unit :=
      { enc_unit with units1 := u8 (UNITX ||| ((code_point >>> MLENX >>> MLENX) &&& MASKX)) }
    { enc_unit with
      units0 := u8 (UNIT14 ||| ((code_point >>> MLENX >>> MLENX >>> MLENX) &&& MASK14)) }
  | _ => enc_unit

/-- The loop `for (size_t i = 1; i < enc_unit->len; ++i)` of `valid`, started at index `i` with
`n` iterations left (`n = len - i`). `some false`: the loop executed `return false`;
`some true`: the loop ran to its end; `none`: it read `units[i]` outside the array. -/
def valid_loop (enc_unit : enc_unit_t) : Nat → Nat → Option Bool
  | 0, _ => some true
  | n + 1, i =>
    match enc_unit.units i with
    | none => none
    | some b =>
      if b.val >>> MLENX ≠ PRE_VALX then some false
      else valid_loop enc_unit n (i + 1)

/-- The function `valid` of `utf-8.c`. -/
def valid (enc_unit : enc_unit_t) : Option Bool :=
  match valid_loop enc_unit (enc_unit.len - 1) 1 with
  | none => none
  | some false => some false
  | some true =>
    match enc_unit.len with
    | 1 => if enc_unit.units0.val >>> MLEN11 ≠ 0 then some false else some true
    | 2 => if enc_unit.units0.val >>> MLEN12 ≠ PRE_VAL12 then some false else some true
    | 3 => if enc_unit.units0.val >>> MLEN13 ≠ PRE_VAL13 then some false else some true
    | 4 => if enc_unit.units0.val >>> MLEN14 ≠ PRE_VAL14 then some false else some true
    | _ => some false

/-- The function `length_of` of `utf-8.c`. -/
def length_of (first_enc : Octet) : Nat :=
  if first_enc.val >>> MLEN11 = 0 then 1
  else if first_enc.val >>> MLEN12 = PRE_VAL12 then 2
  else if first_enc.val >>> MLEN13 = PRE_VAL13 then 3
  else if first_enc.val >>> MLEN14 = PRE_VAL14 then 4
  else 0

/-- The loop `for (size_t i = enc_unit->len - 1; i > 0; --i)` of `decode`, entered with index
`i`; it returns the final `code_point` and `lenx`, or `none` when it reads `units[i]` outside the
array. -/
def decode_loop (enc_unit : enc_unit_t) : Nat → Nat → Nat → Option (Nat × Nat)
  | 0, code_point, lenx => some (code_point, lenx)
  | i + 1, code_point, lenx =>
    match enc_unit.units (i + 1) with
    | none => none
    | some b =>
      decode_loop enc_unit i (u32 (code_point ||| ((b.val &&& MASKX) <<< lenx)))
        (u32 (lenx + MLENX))

/-- The function `decode` of `utf-8.c`. The loop starts at `len - 1`, and `len` is at least 1
there, `valid` having accepted the unit. -/
def decode (enc_unit : enc_unit_t) : Option Nat :=
  match valid enc_unit with
  | none => none
  | some false => some INVALID_CODE_POINT
  | some true =>
    match decode_loop enc_unit (enc_unit.len - 1) 0 0 with
    | none => none
    | some (code_point, lenx) =>
      match enc_unit.len with
      | 1 => some (u32 (code_point ||| (enc_unit.units0.val &&& MASK11)))
      | 2 => some (u32 (code_point ||| ((enc_unit.units0.val &&& MASK12) <<< lenx)))
      | 3 => some (u32 (code_point ||| ((enc_unit.units0.val &&& MASK13) <<< lenx)))
      | 4 => some (u32 (code_point ||| ((enc_unit.units0.val &&& MASK14) <<< lenx)))
      | _ => some code_point

/-! ## Stream writer -/

/-- The loop `for (size_t i = 0; i < n_elems; ++i)` of `write` over the array `enc_units` of
`n_elems` units; `out` is what `fwrite` has sent to the stream so far. `some (false, out)`: the
loop met a unit that `valid` rejects and `write` returns `-1`; `some (true, out)`: the loop ran to
its end; `none`: `valid` read outside the array `units`. The call
`fwrite(units, 1, len, f)` sends the first `len` octets of the unit, and `len` is at most 4
there, `valid` having accepted the unit. -/
def write_loop : List enc_unit_t → List Octet → Option (Bool × List Octet)
  | [], out => some (true, out)
  | enc_unit :: enc_units, out =>
    match valid enc_unit with
    | none => none
    | some false => some (false, out)
    | some true => write_loop enc_units (out ++ enc_unit.octets.take enc_unit.len)

/-- The function `write` of `utf-8.c`. `can_open` tells whether `fopen(path, "w")` succeeds,
`enc_unit` is the indeterminate initial content of the local of the call `encode(0x0A)`, and
`enc_units` is the array of `n_elems` units. The result is the returned status and the content of
the destination (`none`: the destination was not opened and nothing was written to it); the
stream is closed, hence flushed, on both exits. -/
def write (can_open : Bool) (enc_unit : enc_unit_t) (enc_units : List enc_unit_t) :
    Option (Int × Option (List Octet)) :=
  if can_open = false then some (-1, none)
  else
    match write_loop enc_units [] with
    | none => none
    | some (false, out) => some (-1, some out)
    | some (true, out) =>
      let lf := encode enc_unit 0x0A
      some (0, some (out ++ lf.octets.take lf.len))

/-! ## Stream reader -/

/-- Outcome of running the scan of `read`: it returns, or it performs an access with undefined
behaviour (out of bounds, or through a null pointer), or the iteration budget of the model is
used up. -/
inductive Run (α : Type) where
  | returns (a : α)
  | undefined
  | out_of_fuel
  deriving DecidableEq, Repr

/-- The assignment `enc_unit.units[j] = b`; `none` outside the array. -/
def enc_unit_t.set_units (enc_unit : enc_unit_t) (j : Nat) (b : Octet) : Option enc_unit_t :=
  match j with
  | 0 => some { enc_unit with units0 := b }
  | 1 => some { enc_unit with units1 := b }
  | 2 => some { enc_unit with units2 := b }
  | 3 => some { enc_unit with units3 := b }
  | _ => none

/-- The call `memcpy(&enc_unit.units[0], &buffer[i], n)`, octet by octet from offset `j` with `n`
octets left: `none` when it reads outside `buffer` or writes outside `units`. -/
def memcpy (buffer : List Octet) (i : Nat) : Nat → Nat → enc_unit_t → Option enc_unit_t
  | 0, _, enc_unit => some enc_unit
  | n + 1, j, enc_unit =>
    match buffer[i + j]? with
    | none => none
    | some b =>
      match enc_unit.set_units j b with
      | none => none
      | some enc_unit => memcpy buffer i n (j + 1) enc_unit

/-- The variables of `read` that its scan loop changes: the cursor `i`, the local `enc_unit`, the
array `code_points` (one slot per `uint32_t`; `none` is a slot never assigned since `malloc`) and
the variable that `n_elems` points to (`none`: `n_elems` is a null pointer). -/
structure read_state where
  i : Nat
  enc_unit : enc_unit_t
  code_points : List (Option Nat)
  n_elems : Option Nat
  deriving DecidableEq, Repr

/-- The loop `while (i < sz)` of `read` on `buffer` (of `sz = buffer.length` octets), with an
iteration budget. The result is the state at the label `END`, with `true` when the loop ended
because `i < sz` failed and `false` when it ended by a `goto END`. -/
def read_loop (buffer : List Octet) : Nat → read_state → Run (Bool × read_state)
  | fuel, s =>
    match buffer[s.i]? with
    | none => Run.returns (true, s)
    | some b =>
      match fuel with
      | 0 => Run.out_of_fuel
      | fuel + 1 =>
        let enc_unit := { s.enc_unit with units0 := b }
        let enc_unit := { enc_unit with len := length_of enc_unit.units0 }
        let s := { s with enc_unit := enc_unit }
        if enc_unit.len = 0 then Run.returns (false, s)
        else if s.i + enc_unit.len - 1 > buffer.length then Run.returns (false, s)
        else
          match memcpy buffer s.i enc_unit.len 0 enc_unit with
          | none => Run.undefined
          | some enc_unit =>
            let s := { s with enc_unit := enc_unit }
            match decode enc_unit with
            | none => Run.undefined
            | some cp =>
              if cp = INVALID_CODE_POINT then Run.returns (false, s)
              else
                match s.n_elems with
                | none => Run.undefined
                | some n =>
                  if n < s.code_points.length then
                    read_loop buffer fuel
                      { s with
                        code_points := s.code_points.set n (some cp)
                        n_elems := some (n + 1)
                        i := s.i + enc_unit.len }
                  else Run.undefined

/-- What `read` hands to its caller: the returned pointer (`none`: `NULL`, otherwise the array
of `sz` slots) and the variable that `n_elems` points to. -/
structure read_result where
  code_points : Option (List (Option Nat))
  n_elems : Option Nat
  deriving DecidableEq, Repr

/-- The function `read` of `utf-8.c`. `file` is the content of the file at `path` (`none`:
`fopen` fails), `n_elems` the variable the argument `n_elems` points to (`none`: a null pointer)
and `enc_unit` the indeterminate initial content of the local `enc_unit`. The two `malloc`
succeed and `fread` delivers the whole file (`rsz = sz`). The loop gets a budget of `sz`
iterations. -/
def read (file : Option (List Octet)) (n_elems : Option Nat) (enc_unit : enc_unit_t) :
    Run read_result :=
  match file with
  | none => Run.returns ⟨none, n_elems⟩
  | some buffer =>
    let sz := buffer.length
    if sz > MAX_BUFFER_SIZE ∨ sz = 0 then Run.returns ⟨none, n_elems⟩
    else
      let code_points : List (Option Nat) := List.replicate sz none
      match read_loop buffer sz ⟨0, enc_unit, code_points, n_elems⟩ with
      | Run.out_of_fuel => Run.out_of_fuel
      | Run.undefined => Run.undefined
      | Run.returns (_, s) =>
        if n_elems = none then Run.returns ⟨none, s.n_elems⟩
        else Run.returns ⟨some s.code_points, s.n_elems⟩

/-! ## Arithmetic reading of the bit operations -/

theorem shiftRight_MLENX (x : Nat) : x >>> MLENX = x / 64 := by
  simp [MLENX, Nat.shiftRight_eq_div_pow]

theorem land_MASKX (x : Nat) : x &&& MASKX = x % 64 := by
  simpa [MASKX] using Nat.and_pow_two_sub_one_eq_mod x 6

theorem land_MASK11 (x : Nat) : x &&& MASK11 = x % 128 := by
  simpa [MASK11] using Nat.and_pow_two_sub_one_eq_mod x 7

theorem land_MASK12 (x : Nat) : x &&& MASK12 = x % 32 := by
  simpa [MASK12] using Nat.and_pow_two_sub_one_eq_mod x 5

theorem land_MASK13 (x : Nat) : x &&& MASK13 = x % 16 := by
  simpa [MASK13] using Nat.and_pow_two_sub_one_eq_mod x 4

theorem land_MASK14 (x : Nat) : x &&& MASK14 = x % 8 := by
  simpa [MASK14] using Nat.and_pow_two_sub_one_eq_mod x 3

/-- A bitwise or of a multiple of `2 ^ i` with a value below `2 ^ i` is their sum. -/
theorem lor_eq_add (i a b : Nat) (h : b < 2 ^ i) : 2 ^ i * a ||| b = 2 ^ i * a + b :=
  (Nat.mul_add_lt_is_or h a).symm

theorem UNITX_lor (y : Nat) (h : y < 64) : UNITX ||| y = 0x80 + y := by
  have := lor_eq_add 7 1 y (by norm_num; omega)
  simpa [UNITX] using this

theorem UNIT12_lor (y : Nat) (h : y < 32) : UNIT12 ||| y = 0xC0 + y := by
  have := lor_eq_add 5 6 y (by norm_num; omega)
  simpa [UNIT12] using this

theorem UNIT13_lor (y : Nat) (h : y < 16) : UNIT13 ||| y = 0xE0 + y := by
  have := lor_eq_add 4 14 y (by norm_num; omega)
  simpa [UNIT13] using this

theorem UNIT14_lor (y : Nat) (h : y < 8) : UNIT14 ||| y = 0xF0 + y := by
  have := lor_eq_add 3 30 y (by norm_num; omega)
  simpa [UNIT14] using this

theorem u8_val (x : Nat) : (u8 x).val = x % 256 := rfl

theorem u8_val_of_lt (x : Nat) (h : x < 256) : (u8 x).val = x := by
  rw [u8_val]; omega

theorem u32_of_lt (x : Nat) (h : x < 4294967296) : u32 x = x := by
  unfold u32; omega

/-! ## The classifier by value range and the length of an encoding -/

theorem encode_len (enc_unit : enc_unit_t) (code_point : Nat) :
    (encode enc_unit code_point).len = num_of_units code_point := by
  unfold encode
  simp only
  split <;> simp_all

theorem num_of_units_eq_zero (cp : Nat) :
    num_of_units cp = 0 ↔ (0xD800 ≤ cp ∧ cp ≤ 0xDFFF) ∨ cp > 0x10FFFF := by
  unfold num_of_units
  split_ifs <;> simp <;> omega

theorem num_of_units_eq_one (cp : Nat) : num_of_units cp = 1 ↔ cp ≤ 0x7F := by
  unfold num_of_units
  split_ifs <;> simp <;> omega

theorem num_of_units_eq_two (cp : Nat) : num_of_units cp = 2 ↔ 0x80 ≤ cp ∧ cp ≤ 0x7FF := by
  unfold num_of_units
  split_ifs <;> simp <;> omega

theorem num_of_units_eq_three (cp : Nat) :
    num_of_units cp = 3 ↔ 0x800 ≤ cp ∧ cp ≤ 0xFFFF ∧ ¬ (0xD800 ≤ cp ∧ cp ≤ 0xDFFF) := by
  unfold num_of_units
  split_ifs <;> simp <;> omega

theorem num_of_units_eq_four (cp : Nat) :
    num_of_units cp = 4 ↔ 0x10000 ≤ cp ∧ cp ≤ 0x10FFFF := by
  unfold num_of_units
  split_ifs <;> simp <;> omega

theorem num_of_units_le (cp : Nat) : num_of_units cp ≤ 4 := by
  unfold num_of_units
  split_ifs <;> simp

/-! ## The octets that `encode` assigns -/

theorem encode_one (j : enc_unit_t) (cp : Nat) (h : cp ≤ 0x7F) :
    encode j cp = { j with len := 1, units0 := u8 cp } := by
  have hn := (num_of_units_eq_one cp).2 h
  unfold encode
  simp only [hn]

theorem encode_two (j : enc_unit_t) (cp : Nat) (h : 0x80 ≤ cp ∧ cp ≤ 0x7FF) :
    encode j cp =
      { j with len := 2, units0 := u8 (0xC0 + cp / 64), units1 := u8 (0x80 + cp % 64) } := by
  have hn := (num_of_units_eq_two cp).2 h
  unfold encode
  simp only [hn, shiftRight_MLENX, land_MASKX, land_MASK12]
  rw [UNITX_lor _ (by omega), UNIT12_lor _ (by omega)]
  have : cp / 64 % 32 = cp / 64 := by omega
  rw [this]

theorem encode_three (j : enc_unit_t) (cp : Nat)
    (h : 0x800 ≤ cp ∧ cp ≤ 0xFFFF ∧ ¬ (0xD800 ≤ cp ∧ cp ≤ 0xDFFF)) :
    encode j cp =
      { j with
        len := 3, units0 := u8 (0xE0 + cp / 4096), units1 := u8 (0x80 + cp / 64 % 64),
        units2 := u8 (0x80 + cp % 64) } := by
  have hn := (num_of_units_eq_three cp).2 h
  unfold encode
  simp only [hn, shiftRight_MLENX, land_MASKX, land_MASK13]
  rw [UNITX_lor _ (by omega), UNITX_lor _ (by omega), UNIT13_lor _ (by omega)]
  have : cp / 64 / 64 % 16 = cp / 4096 := by omega
  rw [this]

theorem encode_four (j : enc_unit_t) (cp : Nat) (h : 0x10000 ≤ cp ∧ cp ≤ 0x10FFFF) :
    encode j cp =
      { j with
        len := 4, units0 := u8 (0xF0 + cp / 262144), units1 := u8 (0x80 + cp / 4096 % 64),
        units2 := u8 (0x80 + cp / 64 % 64), units3 := u8 (0x80 + cp % 64) } := by
  have hn := (num_of_units_eq_four cp).2 h
  unfold encode
  simp only [hn, shiftRight_MLENX, land_MASKX, land_MASK14]
  rw [UNITX_lor _ (by omega), UNITX_lor _ (by omega), UNITX_lor _ (by omega),
    UNIT14_lor _ (by omega)]
  have h1 : cp / 64 / 64 / 64 % 8 = cp / 262144 := by omega
  have h2 : cp / 64 / 64 % 64 = cp / 4096 % 64 := by omega
  rw [h1, h2]

theorem encode_zero (j : enc_unit_t) (cp : Nat) (h : num_of_units cp = 0) :
    encode j cp = { j with len := 0 } := by
  unfold encode
  simp only [h]

/-! ## Claims on the encoder -/

/-- C3: for every code point value `cp`, the length of `encode cp` is 0 exactly when `cp` is a
surrogate (`0xD800..0xDFFF`) or above `0x10FFFF`; it equals `num_of_units cp`, and is 1 up to
`0x7F`, 2 on `0x80..0x7FF`, 3 on `0x800..0xFFFF` outside the surrogates and 4 on
`0x10000..0x10FFFF`; the encodings of `0xD800` and `0xDFFF` have length 0. -/
theorem encode_len_classification (enc_unit : enc_unit_t) (cp : Nat) :
    ((encode enc_unit cp).len = 0 ↔ (0xD800 ≤ cp ∧ cp ≤ 0xDFFF) ∨ cp > 0x10FFFF) ∧
    (encode enc_unit cp).len = num_of_units cp ∧
    (cp ≤ 0x7F → (encode enc_unit cp).len = 1) ∧
    (0x80 ≤ cp ∧ cp ≤ 0x7FF → (encode enc_unit cp).len = 2) ∧
    (0x800 ≤ cp ∧ cp ≤ 0xFFFF ∧ ¬ (0xD800 ≤ cp ∧ cp ≤ 0xDFFF) → (encode enc_unit cp).len = 3) ∧
    (0x10000 ≤ cp ∧ cp ≤ 0x10FFFF → (encode enc_unit cp).len = 4) ∧
    (encode enc_unit 0xD800).len = 0 ∧ (encode enc_unit 0xDFFF).len = 0 := by
  simp only [encode_len]
  refine ⟨num_of_units_eq_zero cp, trivial, (num_of_units_eq_one cp).2, (num_of_units_eq_two cp).2,
    (num_of_units_eq_three cp).2, (num_of_units_eq_four cp).2, ?_, ?_⟩
  · exact (num_of_units_eq_zero _).2 (Or.inl ⟨by norm_num, by norm_num⟩)
  · exact (num_of_units_eq_zero _).2 (Or.inl ⟨by norm_num, by norm_num⟩)

/-- C4: for every valid code point `cp` (at most `0x10FFFF`, not a surrogate) the encoding has a
length `L` in 1..4 and its first `L` octets are `[cp]` for `L = 1`,
`[0xC0 + cp/64, 0x80 + cp%64]` for `L = 2`,
`[0xE0 + cp/4096, 0x80 + (cp/64)%64, 0x80 + cp%64]` for `L = 3` and
`[0xF0 + cp/262144, 0x80 + (cp/4096)%64, 0x80 + (cp/64)%64, 0x80 + cp%64]` for `L = 4`; in
particular `0x41` gives `[0x41]`, `0x20AC` gives `[0xE2, 0x82, 0xAC]` and `0x10000` gives
`[0xF0, 0x90, 0x80, 0x80]`. -/
theorem encode_bit_layout (enc_unit : enc_unit_t) (cp : Nat) (hmax : cp ≤ 0x10FFFF)
    (hsur : ¬ (0xD800 ≤ cp ∧ cp ≤ 0xDFFF)) :
    (1 ≤ (encode enc_unit cp).len ∧ (encode enc_unit cp).len ≤ 4) ∧
    ((encode enc_unit cp).len = 1 →
      ((encode enc_unit cp).octets.take 1).map Fin.val = [cp]) ∧
    ((encode enc_unit cp).len = 2 →
      ((encode enc_unit cp).octets.take 2).map Fin.val = [0xC0 + cp / 64, 0x80 + cp % 64]) ∧
    ((encode enc_unit cp).len = 3 →
      ((encode enc_unit cp).octets.take 3).map Fin.val =
        [0xE0 + cp / 4096, 0x80 + cp / 64 % 64, 0x80 + cp % 64]) ∧
    ((encode enc_unit cp).len = 4 →
      ((encode enc_unit cp).octets.take 4).map Fin.val =
        [0xF0 + cp / 262144, 0x80 + cp / 4096 % 64, 0x80 + cp / 64 % 64, 0x80 + cp % 64]) ∧
    ((encode enc_unit 0x41).len = 1 ∧
      ((encode enc_unit 0x41).octets.take 1).map Fin.val = [0x41]) ∧
    ((encode enc_unit 0x20AC).len = 3 ∧
      ((encode enc_unit 0x20AC).octets.take 3).map Fin.val = [0xE2, 0x82, 0xAC]) ∧
    ((encode enc_unit 0x10000).len = 4 ∧
      ((encode enc_unit 0x10000).octets.take 4).map Fin.val = [0xF0, 0x90, 0x80, 0x80]) := by
  refine ⟨?_, ?_, ?_, ?_, ?_, ?_, ?_, ?_⟩
  · rw [encode_len]
    have h0 := num_of_units_eq_zero cp
    have h4 := num_of_units_le cp
    omega
  · intro h
    rw [encode_len, num_of_units_eq_one] at h
    simp [encode_one enc_unit cp h, enc_unit_t.octets, u8_val]
    omega
  · intro h
    rw [encode_len, num_of_units_eq_two] at h
    simp [encode_two enc_unit cp h, enc_unit_t.octets, u8_val]
    omega
  · intro h
    rw [encode_len, num_of_units_eq_three] at h
    simp [encode_three enc_unit cp h, enc_unit_t.octets, u8_val]
    omega
  · intro h
    rw [encode_len, num_of_units_eq_four] at h
    simp [encode_four enc_unit cp h, enc_unit_t.octets, u8_val]
    omega
  · rw [encode_one enc_unit 0x41 (by norm_num)]
    simp [enc_unit_t.octets, u8_val]
  · rw [encode_three enc_unit 0x20AC (by norm_num)]
    simp [enc_unit_t.octets, u8_val]
  · rw [encode_four enc_unit 0x10000 (by norm_num)]
    simp [enc_unit_t.octets, u8_val]

theorem encode_bit_layout_witness :
    (1 ≤ (encode ⟨0, 0, 0, 0, 0⟩ 0x7FF).len ∧ (encode ⟨0, 0, 0, 0, 0⟩ 0x7FF).len ≤ 4) ∧
    ((encode ⟨0, 0, 0, 0, 0⟩ 0x7FF).len = 1 →
      ((encode ⟨0, 0, 0, 0, 0⟩ 0x7FF).octets.take 1).map Fin.val = [0x7FF]) ∧
    ((encode ⟨0, 0, 0, 0, 0⟩ 0x7FF).len = 2 →
      ((encode ⟨0, 0, 0, 0, 0⟩ 0x7FF).octets.take 2).map Fin.val =
        [0xC0 + 0x7FF / 64, 0x80 + 0x7FF % 64]) ∧
    ((encode ⟨0, 0, 0, 0, 0⟩ 0x7FF).len = 3 →
      ((encode ⟨0, 0, 0, 0, 0⟩ 0x7FF).octets.take 3).map Fin.val =
        [0xE0 + 0x7FF / 4096, 0x80 + 0x7FF / 64 % 64, 0x80 + 0x7FF % 64]) ∧
    ((encode ⟨0, 0, 0, 0, 0⟩ 0x7FF).len = 4 →
      ((encode ⟨0, 0, 0, 0, 0⟩ 0x7FF).octets.take 4).map Fin.val =
        [0xF0 + 0x7FF / 262144, 0x80 + 0x7FF / 4096 % 64, 0x80 + 0x7FF / 64 % 64,
          0x80 + 0x7FF % 64]) ∧
    ((encode ⟨0, 0, 0, 0, 0⟩ 0x41).len = 1 ∧
      ((encode ⟨0, 0, 0, 0, 0⟩ 0x41).octets.take 1).map Fin.val = [0x41]) ∧
    ((encode ⟨0, 0, 0, 0, 0⟩ 0x20AC).len = 3 ∧
      ((encode ⟨0, 0, 0, 0, 0⟩ 0x20AC).octets.take 3).map Fin.val = [0xE2, 0x82, 0xAC]) ∧
    ((encode ⟨0, 0, 0, 0, 0⟩ 0x10000).len = 4 ∧
      ((encode ⟨0, 0, 0, 0, 0⟩ 0x10000).octets.take 4).map Fin.val = [0xF0, 0x90, 0x80, 0x80]) :=
  encode_bit_layout ⟨0, 0, 0, 0, 0⟩ 0x7FF (by decide) (by decide)

/-! ## The validator, length by length -/

theorem shiftRight_MLEN11 (x : Nat) : x >>> MLEN11 = x / 128 := by
  simp [MLEN11, Nat.shiftRight_eq_div_pow]

theorem shiftRight_MLEN12 (x : Nat) : x >>> MLEN12 = x / 32 := by
  simp [MLEN12, Nat.shiftRight_eq_div_pow]

theorem shiftRight_MLEN13 (x : Nat) : x >>> MLEN13 = x / 16 := by
  simp [MLEN13, Nat.shiftRight_eq_div_pow]

theorem shiftRight_MLEN14 (x : Nat) : x >>> MLEN14 = x / 8 := by
  simp [MLEN14, Nat.shiftRight_eq_div_pow]

/-- An octet is a continuation octet (`10xxxxxx`) when it lies in `0x80..0xBF`. -/
theorem continuation_iff (b : Octet) : b.val >>> MLENX = PRE_VALX ↔ 0x80 ≤ b.val ∧ b.val ≤ 0xBF := by
  have := b.isLt
  rw [shiftRight_MLENX]; unfold PRE_VALX; omega

theorem valid_zero (u : enc_unit_t) (h : u.len = 0) : valid u = some false := by
  simp [valid, h, valid_loop]

theorem valid_one (u : enc_unit_t) (h : u.len = 1) :
    valid u = some (decide (u.units0.val ≤ 0x7F)) := by
  have := u.units0.isLt
  simp only [valid, h, valid_loop, shiftRight_MLEN11]
  by_cases h0 : u.units0.val ≤ 0x7F
  · have : u.units0.val / 128 = 0 := by omega
    simp [this, h0]
  · have : u.units0.val / 128 ≠ 0 := by omega
    simp [this, h0]

theorem valid_two (u : enc_unit_t) (h : u.len = 2) :
    valid u = some (decide ((0x80 ≤ u.units1.val ∧ u.units1.val ≤ 0xBF) ∧
      (0xC0 ≤ u.units0.val ∧ u.units0.val ≤ 0xDF))) := by
  have := u.units0.isLt
  have h1 := continuation_iff u.units1
  simp only [valid, h, valid_loop, enc_unit_t.units, shiftRight_MLEN12, PRE_VAL12]
  by_cases c1 : u.units1.val >>> MLENX = PRE_VALX
  · by_cases c0 : u.units0.val / 32 = 6
    · have : 0xC0 ≤ u.units0.val ∧ u.units0.val ≤ 0xDF := by omega
      simp [c1, c0, h1.1 c1, this]
    · have : ¬ (0xC0 ≤ u.units0.val ∧ u.units0.val ≤ 0xDF) := by omega
      simp [c1, c0, h1.1 c1, this]
  · have : ¬ (0x80 ≤ u.units1.val ∧ u.units1.val ≤ 0xBF) := fun hh => c1 (h1.2 hh)
    simp [c1, this]

theorem valid_three (u : enc_unit_t) (h : u.len = 3) :
    valid u = some (decide ((0x80 ≤ u.units1.val ∧ u.units1.val ≤ 0xBF) ∧
      (0x80 ≤ u.units2.val ∧ u.units2.val ≤ 0xBF) ∧
      (0xE0 ≤ u.units0.val ∧ u.units0.val ≤ 0xEF))) := by
  have := u.units0.isLt
  have h1 := continuation_iff u.units1
  have h2 := continuation_iff u.units2
  simp only [valid, h, valid_loop, enc_unit_t.units, shiftRight_MLEN13, PRE_VAL13]
  by_cases c1 : u.units1.val >>> MLENX = PRE_VALX
  · by_cases c2 : u.units2.val >>> MLENX = PRE_VALX
    · by_cases c0 : u.units0.val / 16 = 14
      · have : 0xE0 ≤ u.units0.val ∧ u.units0.val ≤ 0xEF := by omega
        simp [c1, c2, c0, h1.1 c1, h2.1 c2, this]
      · have : ¬ (0xE0 ≤ u.units0.val ∧ u.units0.val ≤ 0xEF) := by omega
        simp [c1, c2, c0, h1.1 c1, h2.1 c2, this]
    · have : ¬ (0x80 ≤ u.units2.val ∧ u.units2.val ≤ 0xBF) := fun hh => c2 (h2.2 hh)
      simp [c1, c2, this]
  · have : ¬ (0x80 ≤ u.units1.val ∧ u.units1.val ≤ 0xBF) := fun hh => c1 (h1.2 hh)
    simp [c1, this]

theorem valid_four (u : enc_unit_t) (h : u.len = 4) :
    valid u = some (decide ((0x80 ≤ u.units1.val ∧ u.units1.val ≤ 0xBF) ∧
      (0x80 ≤ u.units2.val ∧ u.units2.val ≤ 0xBF) ∧
      (0x80 ≤ u.units3.val ∧ u.units3.val ≤ 0xBF) ∧
      (0xF0 ≤ u.units0.val ∧ u.units0.val ≤ 0xF7))) := by
  have := u.units0.isLt
  have h1 := continuation_iff u.units1
  have h2 := continuation_iff u.units2
  have h3 := continuation_iff u.units3
  simp only [valid, h, valid_loop, enc_unit_t.units, shiftRight_MLEN14, PRE_VAL14]
  by_cases c1 : u.units1.val >>> MLENX = PRE_VALX
  · by_cases c2 : u.units2.val >>> MLENX = PRE_VALX
    · by_cases c3 : u.units3.val >>> MLENX = PRE_VALX
      · by_cases c0 : u.units0.val / 8 = 30
        · have : 0xF0 ≤ u.units0.val ∧ u.units0.val ≤ 0xF7 := by omega
          simp [c1, c2, c3, c0, h1.1 c1, h2.1 c2, h3.1 c3, this]
        · have : ¬ (0xF0 ≤ u.units0.val ∧ u.units0.val ≤ 0xF7) := by omega
          simp [c1, c2, c3, c0, h1.1 c1, h2.1 c2, h3.1 c3, this]
      · have : ¬ (0x80 ≤ u.units3.val ∧ u.units3.val ≤ 0xBF) := fun hh => c3 (h3.2 hh)
        simp [c1, c2, c3, this]
    · have : ¬ (0x80 ≤ u.units2.val ∧ u.units2.val ≤ 0xBF) := fun hh => c2 (h2.2 hh)
      simp [c1, c2, this]
  · have : ¬ (0x80 ≤ u.units1.val ∧ u.units1.val ≤ 0xBF) := fun hh => c1 (h1.2 hh)
    simp [c1, this]

/-- With a length above 4 the loop of `valid` either rejects one of `units[1..3]` or reads
`units[4]`, outside the array: the unit is never accepted. -/
theorem valid_of_four_lt (u : enc_unit_t) (h : 4 < u.len) :
    valid u = (if (0x80 ≤ u.units1.val ∧ u.units1.val ≤ 0xBF) ∧
      (0x80 ≤ u.units2.val ∧ u.units2.val ≤ 0xBF) ∧
      (0x80 ≤ u.units3.val ∧ u.units3.val ≤ 0xBF) then none else some false) := by
  obtain ⟨k, hk⟩ : ∃ k, u.len = k + 5 := ⟨u.len - 5, by omega⟩
  have h1 := continuation_iff u.units1
  have h2 := continuation_iff u.units2
  have h3 := continuation_iff u.units3
  simp only [valid, hk, Nat.add_sub_cancel, valid_loop, enc_unit_t.units]
  by_cases c1 : u.units1.val >>> MLENX = PRE_VALX
  · by_cases c2 : u.units2.val >>> MLENX = PRE_VALX
    · by_cases c3 : u.units3.val >>> MLENX = PRE_VALX
      · simp [c1, c2, c3, h1.1 c1, h2.1 c2, h3.1 c3]
      · have : ¬ (0x80 ≤ u.units3.val ∧ u.units3.val ≤ 0xBF) := fun hh => c3 (h3.2 hh)
        simp [c1, c2, c3, this]
    · have : ¬ (0x80 ≤ u.units2.val ∧ u.units2.val ≤ 0xBF) := fun hh => c2 (h2.2 hh)
      simp [c1, c2, this]
  · have : ¬ (0x80 ≤ u.units1.val ∧ u.units1.val ≤ 0xBF) := fun hh => c1 (h1.2 hh)
    simp [c1, this]

theorem valid_ne_true_of_four_lt (u : enc_unit_t) (h : 4 < u.len) : valid u ≠ some true := by
  rw [valid_of_four_lt u h]
  split_ifs <;> simp

/-- A unit that `valid` accepts has a length in 1..4. -/
theorem len_of_valid (u : enc_unit_t) (h : valid u = some true) : 1 ≤ u.len ∧ u.len ≤ 4 := by
  by_contra hc
  rcases Nat.lt_or_ge 4 u.len with h4 | h4
  · exact valid_ne_true_of_four_lt u h4 h
  · have h0 : u.len = 0 := by omega
    rw [valid_zero u h0] at h
    simp at h

/-- On a unit of length at most 4, `valid` performs no access outside `units`. -/
theorem valid_isSome (u : enc_unit_t) (h : u.len ≤ 4) : ∃ r, valid u = some r := by
  have : u.len = 0 ∨ u.len = 1 ∨ u.len = 2 ∨ u.len = 3 ∨ u.len = 4 := by omega
  rcases this with h | h | h | h | h
  · exact ⟨_, valid_zero u h⟩
  · exact ⟨_, valid_one u h⟩
  · exact ⟨_, valid_two u h⟩
  · exact ⟨_, valid_three u h⟩
  · exact ⟨_, valid_four u h⟩

/-! ## The decoder, length by length -/

theorem lor_shiftLeft (a y k : Nat) (h : a < 2 ^ k) : a ||| (y <<< k) = y * 2 ^ k + a := by
  rw [Nat.shiftLeft_eq, Nat.lor_comm, Nat.mul_comm, lor_eq_add k y a h]

theorem decode_of_invalid (u : enc_unit_t) (h : valid u = some false) :
    decode u = some INVALID_CODE_POINT := by
  simp [decode, h]

theorem decode_one (u : enc_unit_t) (h : u.len = 1) (hv : valid u = some true) :
    decode u = some (u.units0.val % 128) := by
  have := u.units0.isLt
  simp only [decode, hv, h, decode_loop, land_MASK11, Nat.zero_or]
  rw [u32_of_lt _ (by omega)]

theorem u32_lenx_6 : u32 (0 + MLENX) = 6 := rfl

theorem u32_lenx_12 : u32 (6 + MLENX) = 12 := rfl

theorem u32_lenx_18 : u32 (12 + MLENX) = 18 := rfl

theorem u32_first (y : Nat) : u32 (0 ||| ((y % 64) <<< 0)) = y % 64 := by
  rw [Nat.shiftLeft_zero, Nat.zero_or, u32_of_lt _ (by omega)]

theorem u32_lor_6 (acc y : Nat) (hacc : acc < 64) (hy : y < 64) :
    u32 (acc ||| (y <<< 6)) = y * 64 + acc := by
  rw [lor_shiftLeft _ _ 6 (by norm_num; omega), u32_of_lt _ (by norm_num; omega)]
  norm_num

theorem u32_lor_12 (acc y : Nat) (hacc : acc < 4096) (hy : y < 64) :
    u32 (acc ||| (y <<< 12)) = y * 4096 + acc := by
  rw [lor_shiftLeft _ _ 12 (by norm_num; omega), u32_of_lt _ (by norm_num; omega)]
  norm_num

theorem u32_lor_18 (acc y : Nat) (hacc : acc < 262144) (hy : y < 64) :
    u32 (acc ||| (y <<< 18)) = y * 262144 + acc := by
  rw [lor_shiftLeft _ _ 18 (by norm_num; omega), u32_of_lt _ (by norm_num; omega)]
  norm_num

theorem decode_two (u : enc_unit_t) (h : u.len = 2) (hv : valid u = some true) :
    decode u = some (u.units0.val % 32 * 64 + u.units1.val % 64) := by
  simp only [decode, hv, h, decode_loop, enc_unit_t.units, land_MASKX, land_MASK12, u32_first,
    u32_lenx_6]
  rw [u32_lor_6 _ _ (by omega) (by omega)]

theorem decode_three (u : enc_unit_t) (h : u.len = 3) (hv : valid u = some true) :
    decode u = some (u.units0.val % 16 * 4096 + u.units1.val % 64 * 64 + u.units2.val % 64) := by
  simp only [decode, hv, h, decode_loop, enc_unit_t.units, land_MASKX, land_MASK13, u32_first,
    u32_lenx_6, u32_lenx_12]
  rw [u32_lor_6 _ _ (by omega) (by omega), u32_lor_12 _ _ (by omega) (by omega)]
  refine congrArg some ?_
  omega

theorem decode_four (u : enc_unit_t) (h : u.len = 4) (hv : valid u = some true) :
    decode u = some (u.units0.val % 8 * 262144 + u.units1.val % 64 * 4096 +
      u.units2.val % 64 * 64 + u.units3.val % 64) := by
  simp only [decode, hv, h, decode_loop, enc_unit_t.units, land_MASKX, land_MASK14, u32_first,
    u32_lenx_6, u32_lenx_12, u32_lenx_18]
  rw [u32_lor_6 _ _ (by omega) (by omega), u32_lor_12 _ _ (by omega) (by omega),
    u32_lor_18 _ _ (by omega) (by omega)]
  refine congrArg some ?_
  omega

/-! ## Encoding then decoding -/

/-- The four ranges of valid code points. -/
theorem code_point_ranges (cp : Nat) (hmax : cp ≤ 0x10FFFF)
    (hsur : ¬ (0xD800 ≤ cp ∧ cp ≤ 0xDFFF)) :
    cp ≤ 0x7F ∨ (0x80 ≤ cp ∧ cp ≤ 0x7FF) ∨
      (0x800 ≤ cp ∧ cp ≤ 0xFFFF ∧ ¬ (0xD800 ≤ cp ∧ cp ≤ 0xDFFF)) ∨
      (0x10000 ≤ cp ∧ cp ≤ 0x10FFFF) := by
  omega

/-- The encoding of a valid code point is accepted by `valid`. -/
theorem valid_encode (j : enc_unit_t) (cp : Nat) (hmax : cp ≤ 0x10FFFF)
    (hsur : ¬ (0xD800 ≤ cp ∧ cp ≤ 0xDFFF)) : valid (encode j cp) = some true := by
  rcases code_point_ranges cp hmax hsur with h | h | h | h
  · rw [encode_one j cp h, valid_one _ rfl]
    simp only [u8_val, Option.some.injEq, decide_eq_true_eq]
    omega
  · rw [encode_two j cp h, valid_two _ rfl]
    simp only [u8_val, Option.some.injEq, decide_eq_true_eq]
    omega
  · rw [encode_three j cp h, valid_three _ rfl]
    simp only [u8_val, Option.some.injEq, decide_eq_true_eq]
    omega
  · rw [encode_four j cp h, valid_four _ rfl]
    simp only [u8_val, Option.some.injEq, decide_eq_true_eq]
    omega

/-- Decoding the encoding of a valid code point gives the code point back. -/
theorem decode_encode_eq (enc_unit : enc_unit_t) (cp : Nat) (hmax : cp ≤ 0x10FFFF)
    (hsur : ¬ (0xD800 ≤ cp ∧ cp ≤ 0xDFFF)) : decode (encode enc_unit cp) = some cp := by
  have hv := valid_encode enc_unit cp hmax hsur
  rcases code_point_ranges cp hmax hsur with h | h | h | h
  · rw [encode_one enc_unit cp h] at hv ⊢
    rw [decode_one _ rfl hv]
    simp only [u8_val]
    refine congrArg some ?_
    omega
  · rw [encode_two enc_unit cp h] at hv ⊢
    rw [decode_two _ rfl hv]
    simp only [u8_val]
    refine congrArg some ?_
    omega
  · rw [encode_three enc_unit cp h] at hv ⊢
    rw [decode_three _ rfl hv]
    simp only [u8_val]
    refine congrArg some ?_
    omega
  · rw [encode_four enc_unit cp h] at hv ⊢
    rw [decode_four _ rfl hv]
    simp only [u8_val]
    refine congrArg some ?_
    omega

/-- C1: round trip. For every code point `cp` in `[0, 0x10FFFF]` outside the surrogate range
`[0xD800, 0xDFFF]`, `decode` applied to `encode cp` returns `cp` (whatever the uninitialised
local of `encode` contained). -/
theorem decode_encode (enc_unit : enc_unit_t) (cp : Nat) (hmax : cp ≤ 0x10FFFF)
    (hsur : ¬ (0xD800 ≤ cp ∧ cp ≤ 0xDFFF)) : decode (encode enc_unit cp) = some cp :=
  decode_encode_eq enc_unit cp hmax hsur

theorem decode_encode_witness :
    decode (encode ⟨0, 0, 0, 0, 0⟩ 0x20AC) = some 0x20AC :=
  decode_encode ⟨0, 0, 0, 0, 0⟩ 0x20AC (by decide) (by decide)

/-! ## The classifier by leading octet -/

theorem length_of_eq (b : Octet) :
    length_of b =
      if b.val ≤ 0x7F then 1
      else if 0xC0 ≤ b.val ∧ b.val ≤ 0xDF then 2
      else if 0xE0 ≤ b.val ∧ b.val ≤ 0xEF then 3
      else if 0xF0 ≤ b.val ∧ b.val ≤ 0xF7 then 4
      else 0 := by
  have := b.isLt
  simp only [length_of, shiftRight_MLEN11, shiftRight_MLEN12, shiftRight_MLEN13,
    shiftRight_MLEN14, PRE_VAL12, PRE_VAL13, PRE_VAL14]
  have e1 : b.val / 128 = 0 ↔ b.val ≤ 0x7F := by omega
  have e2 : b.val / 32 = 6 ↔ 0xC0 ≤ b.val ∧ b.val ≤ 0xDF := by omega
  have e3 : b.val / 16 = 14 ↔ 0xE0 ≤ b.val ∧ b.val ≤ 0xEF := by omega
  have e4 : b.val / 8 = 30 ↔ 0xF0 ≤ b.val ∧ b.val ≤ 0xF7 := by omega
  simp only [e1, e2, e3, e4]

theorem length_of_le (b : Octet) : length_of b ≤ 4 := by
  rw [length_of_eq]
  split_ifs <;> simp

/-- The leading octet of the encoding of a valid code point announces the length of the
encoding. -/
theorem length_of_encode (j : enc_unit_t) (cp : Nat) (hmax : cp ≤ 0x10FFFF)
    (hsur : ¬ (0xD800 ≤ cp ∧ cp ≤ 0xDFFF)) :
    length_of (encode j cp).units0 = num_of_units cp := by
  rw [length_of_eq]
  rcases code_point_ranges cp hmax hsur with h | h | h | h
  · rw [encode_one j cp h, (num_of_units_eq_one cp).2 h]
    simp only [u8_val]
    split_ifs <;> omega
  · rw [encode_two j cp h, (num_of_units_eq_two cp).2 h]
    simp only [u8_val]
    split_ifs <;> omega
  · rw [encode_three j cp h, (num_of_units_eq_three cp).2 h]
    simp only [u8_val]
    split_ifs <;> omega
  · rw [encode_four j cp h, (num_of_units_eq_four cp).2 h]
    simp only [u8_val]
    split_ifs <;> omega

/-- C8: length agreement. For every valid code point `cp` (at most `0x10FFFF`, not a surrogate),
`num_of_units cp` is the length of `encode cp`, and `length_of` applied to the first octet of the
encoding gives the same length. -/
theorem length_agreement (enc_unit : enc_unit_t) (cp : Nat) (hmax : cp ≤ 0x10FFFF)
    (hsur : ¬ (0xD800 ≤ cp ∧ cp ≤ 0xDFFF)) :
    num_of_units cp = (encode enc_unit cp).len ∧
      length_of (encode enc_unit cp).units0 = (encode enc_unit cp).len := by
  rw [encode_len]
  exact ⟨rfl, length_of_encode enc_unit cp hmax hsur⟩

theorem length_agreement_witness :
    num_of_units 0x10000 = (encode ⟨0, 0, 0, 0, 0⟩ 0x10000).len ∧
      length_of (encode ⟨0, 0, 0, 0, 0⟩ 0x10000).units0 = (encode ⟨0, 0, 0, 0, 0⟩ 0x10000).len :=
  length_agreement ⟨0, 0, 0, 0, 0⟩ 0x10000 (by decide) (by decide)

/-! ## Claims on the validator and the decoder -/

/-- The conditions of `valid` on the octets of a unit: every octet at an index in `1..len-1` is a
continuation octet, and octet 0 has the prefix of the length. -/
theorem valid_conditions (u : enc_unit_t) (hlen : 1 ≤ u.len ∧ u.len ≤ 4) :
    valid u = some true ↔
      (∀ i b, 1 ≤ i → i < u.len → u.units i = some b → 0x80 ≤ b.val ∧ b.val ≤ 0xBF) ∧
      (u.len = 1 → u.units0.val ≤ 0x7F) ∧
      (u.len = 2 → 0xC0 ≤ u.units0.val ∧ u.units0.val ≤ 0xDF) ∧
      (u.len = 3 → 0xE0 ≤ u.units0.val ∧ u.units0.val ≤ 0xEF) ∧
      (u.len = 4 → 0xF0 ≤ u.units0.val ∧ u.units0.val ≤ 0xF7) := by
  have hcases : u.len = 1 ∨ u.len = 2 ∨ u.len = 3 ∨ u.len = 4 := by omega
  rcases hcases with h | h | h | h
  · rw [valid_one u h]
    simp only [h, Option.some.injEq, decide_eq_true_eq]
    constructor
    · intro h0
      exact ⟨fun i b h1 h2 => by omega, fun _ => h0, by simp, by simp, by simp⟩
    · intro hc
      exact hc.2.1 trivial
  · rw [valid_two u h]
    simp only [h, Option.some.injEq, decide_eq_true_eq]
    constructor
    · intro h0
      refine ⟨fun i b h1 h2 hb => ?_, by simp, fun _ => h0.2, by simp, by simp⟩
      have hi : i = 1 := by omega
      subst hi
      simp only [enc_unit_t.units, Option.some.injEq] at hb
      subst hb
      exact h0.1
    · intro hc
      exact ⟨hc.1 1 _ (by omega) (by omega) rfl, hc.2.2.1 trivial⟩
  · rw [valid_three u h]
    simp only [h, Option.some.injEq, decide_eq_true_eq]
    constructor
    · intro h0
      refine ⟨fun i b h1 h2 hb => ?_, by simp, by simp, fun _ => h0.2.2, by simp⟩
      have hi : i = 1 ∨ i = 2 := by omega
      rcases hi with hi | hi <;> subst hi <;>
        simp only [enc_unit_t.units, Option.some.injEq] at hb <;> subst hb
      · exact h0.1
      · exact h0.2.1
    · intro hc
      exact ⟨hc.1 1 _ (by omega) (by omega) rfl, hc.1 2 _ (by omega) (by omega) rfl,
        hc.2.2.2.1 trivial⟩
  · rw [valid_four u h]
    simp only [h, Option.some.injEq, decide_eq_true_eq]
    constructor
    · intro h0
      refine ⟨fun i b h1 h2 hb => ?_, by simp, by simp, by simp, fun _ => h0.2.2.2⟩
      have hi : i = 1 ∨ i = 2 ∨ i = 3 := by omega
      rcases hi with hi | hi | hi <;> subst hi <;>
        simp only [enc_unit_t.units, Option.some.injEq] at hb <;> subst hb
      · exact h0.1
      · exact h0.2.1
      · exact h0.2.2.1
    · intro hc
      exact ⟨hc.1 1 _ (by omega) (by omega) rfl, hc.1 2 _ (by omega) (by omega) rfl,
        hc.1 3 _ (by omega) (by omega) rfl, hc.2.2.2.2 trivial⟩

/-- A unit with an octet at an index in `1..len-1` that is not a continuation octet is rejected,
whatever its length. -/
theorem valid_of_bad_continuation (u : enc_unit_t) (i : Nat) (b : Octet) (h1 : 1 ≤ i)
    (h2 : i < u.len) (hb : u.units i = some b) (hbad : ¬ (0x80 ≤ b.val ∧ b.val ≤ 0xBF)) :
    valid u = some false := by
  have hi : i = 1 ∨ i = 2 ∨ i = 3 := by
    rcases Nat.lt_or_ge i 4 with h | h
    · omega
    · exfalso
      obtain ⟨k, rfl⟩ : ∃ k, i = k + 4 := ⟨i - 4, by omega⟩
      simp [enc_unit_t.units] at hb
  have hlen : u.len = 2 ∨ u.len = 3 ∨ u.len = 4 ∨ 4 < u.len := by omega
  rcases hi with hi | hi | hi <;> subst hi <;>
    simp only [enc_unit_t.units, Option.some.injEq] at hb <;> subst hb <;>
    rcases hlen with h | h | h | h <;>
    first
    | omega
    | (rw [valid_two u h]; simp [hbad])
    | (rw [valid_three u h]; simp [hbad])
    | (rw [valid_four u h]; simp [hbad])
    | (rw [valid_of_four_lt u h]; simp [hbad])

/-- C7: validator characterisation. For every encoding unit `u`, `valid u` is true if and only if
`u.len` is in `{1, 2, 3, 4}`, every octet at an index in `1..len-1` lies in `0x80..0xBF`, and
octet 0 has the prefix of the length (`0x00..0x7F` for 1, `0xC0..0xDF` for 2, `0xE0..0xEF` for 3,
`0xF0..0xF7` for 4). With a length of at most 4, `valid` returns a result; length 0 is rejected;
a unit with an octet at an index in `1..len-1` outside `0x80..0xBF` is rejected whatever its
length. -/
theorem valid_characterisation (u : enc_unit_t) :
    (valid u = some true ↔
      (1 ≤ u.len ∧ u.len ≤ 4) ∧
      (∀ i b, 1 ≤ i → i < u.len → u.units i = some b → 0x80 ≤ b.val ∧ b.val ≤ 0xBF) ∧
      (u.len = 1 → u.units0.val ≤ 0x7F) ∧
      (u.len = 2 → 0xC0 ≤ u.units0.val ∧ u.units0.val ≤ 0xDF) ∧
      (u.len = 3 → 0xE0 ≤ u.units0.val ∧ u.units0.val ≤ 0xEF) ∧
      (u.len = 4 → 0xF0 ≤ u.units0.val ∧ u.units0.val ≤ 0xF7)) ∧
    (u.len ≤ 4 → ∃ r, valid u = some r) ∧
    (u.len = 0 → valid u = some false) ∧
    (∀ i b, 1 ≤ i → i < u.len → u.units i = some b → ¬ (0x80 ≤ b.val ∧ b.val ≤ 0xBF) →
      valid u = some false) := by
  refine ⟨⟨fun hv => ?_, fun hc => ?_⟩, valid_isSome u, valid_zero u,
    fun i b h1 h2 hb hbad => valid_of_bad_continuation u i b h1 h2 hb hbad⟩
  · have hlen := len_of_valid u hv
    exact ⟨hlen, (valid_conditions u hlen).1 hv⟩
  · exact (valid_conditions u hc.1).2 hc.2

/-- The value that `decode` returns for an accepted unit is below `2 ^ 21`. -/
theorem decode_lt (u : enc_unit_t) (hv : valid u = some true) :
    ∃ cp, decode u = some cp ∧ cp < 2097152 := by
  have hlen := len_of_valid u hv
  have hcases : u.len = 1 ∨ u.len = 2 ∨ u.len = 3 ∨ u.len = 4 := by omega
  rcases hcases with h | h | h | h
  · exact ⟨_, decode_one u h hv, by omega⟩
  · exact ⟨_, decode_two u h hv, by omega⟩
  · exact ⟨_, decode_three u h hv, by omega⟩
  · exact ⟨_, decode_four u h hv, by omega⟩

theorem decode_of_undefined (u : enc_unit_t) (h : valid u = none) : decode u = none := by
  simp [decode, h]

/-- C6: for every encoding unit `u`, `decode u` returns `INVALID_CODE_POINT` (`0xFFFFFFFF`) if and
only if `valid u` is false; when `valid u` is true, `decode` returns a value strictly below
`0xFFFFFFFF`. -/
theorem decode_invalid_iff (u : enc_unit_t) :
    (decode u = some INVALID_CODE_POINT ↔ valid u = some false) ∧
    (valid u = some true → ∃ cp, decode u = some cp ∧ cp < 0xFFFFFFFF) := by
  constructor
  · constructor
    · intro hd
      rcases hv : valid u with _ | r
      · rw [decode_of_undefined u hv] at hd
        simp at hd
      · cases r
        · rfl
        · obtain ⟨cp, hcp, hlt⟩ := decode_lt u hv
          rw [hcp] at hd
          simp only [Option.some.injEq, INVALID_CODE_POINT] at hd
          omega
    · exact decode_of_invalid u
  · intro hv
    obtain ⟨cp, hcp, hlt⟩ := decode_lt u hv
    exact ⟨cp, hcp, by omega⟩

/-- C5: `decode` returns values that are not code points. The well-formed unit
`ED A0 80` (length 3) decodes to the surrogate `0xD800`, and the well-formed units
`F4 90 80 80` and `F7 BF BF BF` (length 4) decode to `0x110000` and `0x1FFFFF`, above
`0x10FFFF`; none is `INVALID_CODE_POINT`. The same octets in a file come out of `read` as a
code point. -/
theorem decode_returns_non_code_points :
    decode ⟨0xED, 0xA0, 0x80, 0, 3⟩ = some 0xD800 ∧
    decode ⟨0xF4, 0x90, 0x80, 0x80, 4⟩ = some 0x110000 ∧
    decode ⟨0xF7, 0xBF, 0xBF, 0xBF, 4⟩ = some 0x1FFFFF ∧
    num_of_units 0xD800 = 0 ∧ num_of_units 0x110000 = 0 ∧
    read (some [0xED, 0xA0, 0x80]) (some 0) ⟨0, 0, 0, 0, 0⟩ =
      Run.returns ⟨some [some 0xD800, none, none], some 1⟩ := by
  decide

/-! ## The writer -/

theorem write_loop_accepted (us : List enc_unit_t) (out : List Octet)
    (h : ∀ u ∈ us, valid u = some true) :
    write_loop us out = some (true, out ++ us.flatMap fun u => u.octets.take u.len) := by
  induction us generalizing out with
  | nil => simp [write_loop]
  | cons a rest ih =>
    have ha : valid a = some true := h a (List.mem_cons_self a rest)
    have hrest : ∀ u ∈ rest, valid u = some true := fun u hu => h u (List.mem_cons_of_mem a hu)
    simp only [write_loop, ha, ih _ hrest, List.flatMap_cons, List.append_assoc]

theorem write_loop_first_rejected (us : List enc_unit_t) (k : Nat) (u : enc_unit_t)
    (out : List Octet) (hk : us[k]? = some u) (hu : valid u = some false)
    (hpre : ∀ v ∈ us.take k, valid v = some true) :
    write_loop us out = some (false, out ++ (us.take k).flatMap fun v => v.octets.take v.len) := by
  induction us generalizing k out with
  | nil => simp at hk
  | cons a rest ih =>
    cases k with
    | zero =>
      simp only [List.getElem?_cons_zero, Option.some.injEq] at hk
      subst hk
      simp [write_loop, hu]
    | succ k =>
      simp only [List.getElem?_cons_succ] at hk
      have ha : valid a = some true := hpre a (by simp)
      have hrest : ∀ v ∈ rest.take k, valid v = some true := fun v hv => hpre v (by simp [hv])
      simp only [write_loop, ha, ih k _ hk hrest, List.take_succ_cons, List.flatMap_cons,
        List.append_assoc]

theorem write_loop_true (us : List enc_unit_t) (out o : List Octet)
    (h : write_loop us out = some (true, o)) : ∀ u ∈ us, valid u = some true := by
  induction us generalizing out with
  | nil => simp
  | cons a rest ih =>
    rcases hv : valid a with _ | r
    · simp [write_loop, hv] at h
    · cases r
      · simp [write_loop, hv] at h
      · simp only [write_loop, hv] at h
        intro u hu
        rcases List.mem_cons.1 hu with rfl | hu
        · exact hv
        · exact ih _ h u hu

theorem write_loop_false (us : List enc_unit_t) (out o : List Octet)
    (h : write_loop us out = some (false, o)) : ∃ u ∈ us, valid u = some false := by
  induction us generalizing out with
  | nil => simp [write_loop] at h
  | cons a rest ih =>
    rcases hv : valid a with _ | r
    · simp [write_loop, hv] at h
    · cases r
      · exact ⟨a, List.mem_cons_self a rest, hv⟩
      · simp only [write_loop, hv] at h
        obtain ⟨u, hu, hr⟩ := ih _ h
        exact ⟨u, List.mem_cons_of_mem a hu, hr⟩

theorem write_loop_isSome (us : List enc_unit_t) (out : List Octet)
    (h : ∀ u ∈ us, u.len ≤ 4) : ∃ r o, write_loop us out = some (r, o) := by
  induction us generalizing out with
  | nil => exact ⟨true, out, rfl⟩
  | cons a rest ih =>
    obtain ⟨r, hr⟩ := valid_isSome a (h a (List.mem_cons_self a rest))
    cases r
    · exact ⟨false, out, by simp [write_loop, hr]⟩
    · obtain ⟨r', o, hro⟩ := ih (out ++ a.octets.take a.len)
        (fun u hu => h u (List.mem_cons_of_mem a hu))
      exact ⟨r', o, by simp [write_loop, hr, hro]⟩

/-- The octets that `write` sends for the line feed. -/
theorem line_feed_octets (j : enc_unit_t) :
    (encode j 0x0A).octets.take (encode j 0x0A).len = [0x0A] := by
  rw [encode_one j 0x0A (by norm_num)]
  rfl

/-- On units that are all accepted, `write` returns 0 and the destination holds their octets
and the line feed. -/
theorem write_of_accepted (enc_unit : enc_unit_t) (enc_units : List enc_unit_t)
    (h : ∀ u ∈ enc_units, valid u = some true) :
    write true enc_unit enc_units =
      some (0, some ((enc_units.flatMap fun u => u.octets.take u.len) ++ [0x0A])) := by
  simp only [write, write_loop_accepted enc_units [] h, line_feed_octets]
  simp

/-- C9: writer output on success. For every sequence of encoding units that are all accepted by
`valid`, the empty sequence included, `write` returns 0 and the destination holds exactly the
concatenation, in order, of the first `len` octets of each unit, followed by the single octet
`0x0A`; for the empty sequence it holds exactly `[0x0A]`. -/
theorem write_success (enc_unit : enc_unit_t) (enc_units : List enc_unit_t)
    (h : ∀ u ∈ enc_units, valid u = some true) :
    write true enc_unit enc_units =
        some (0, some ((enc_units.flatMap fun u => u.octets.take u.len) ++ [0x0A])) ∧
      write true enc_unit [] = some (0, some [0x0A]) := by
  constructor
  · exact write_of_accepted enc_unit enc_units h
  · simp only [write, write_loop, line_feed_octets]
    simp

theorem write_success_witness :
    write true ⟨0, 0, 0, 0, 0⟩ [⟨0x41, 0, 0, 0, 1⟩, ⟨0xE2, 0x82, 0xAC, 0, 3⟩] =
        some (0, some (([⟨0x41, 0, 0, 0, 1⟩, ⟨0xE2, 0x82, 0xAC, 0, 3⟩].flatMap
          fun u : enc_unit_t => u.octets.take u.len) ++ [0x0A])) ∧
      write true ⟨0, 0, 0, 0, 0⟩ [] = some (0, some [0x0A]) :=
  write_success ⟨0, 0, 0, 0, 0⟩ [⟨0x41, 0, 0, 0, 1⟩, ⟨0xE2, 0x82, 0xAC, 0, 3⟩] (by decide)

/-- C10: writer failure. On a destination that can be opened: whenever `write` returns, its
status is non-zero if and only if some unit of the sequence is rejected by `valid`; when unit `k`
is rejected and the units before it are accepted, `write` returns `-1` and the destination holds
exactly the concatenated octets of units `0..k-1` (nothing of unit `k` or of a later unit, no
trailing `0x0A`); and `write` returns on every sequence of units of length at most 4. -/
theorem write_failure (enc_unit : enc_unit_t) (enc_units : List enc_unit_t) :
    (∀ st out, write true enc_unit enc_units = some (st, out) →
      (st ≠ 0 ↔ ∃ u ∈ enc_units, valid u = some false)) ∧
    (∀ k u, enc_units[k]? = some u → valid u = some false →
      (∀ v ∈ enc_units.take k, valid v = some true) →
      write true enc_unit enc_units =
        some (-1, some ((enc_units.take k).flatMap fun v => v.octets.take v.len))) ∧
    ((∀ u ∈ enc_units, u.len ≤ 4) →
      ∃ st out, write true enc_unit enc_units = some (st, some out)) := by
  refine ⟨fun st out hw => ?_, fun k u hk hu hpre => ?_, fun hlen => ?_⟩
  · rcases hl : write_loop enc_units [] with _ | ⟨r, o⟩
    · simp [write, hl] at hw
    · cases r
      · simp only [write, hl, Bool.true_eq_false, if_false, Option.some.injEq,
          Prod.mk.injEq] at hw
        have hst : st ≠ 0 := by rw [← hw.1]; decide
        exact ⟨fun _ => write_loop_false enc_units [] o hl, fun _ => hst⟩
      · simp only [write, hl, Bool.true_eq_false, if_false, Option.some.injEq,
          Prod.mk.injEq] at hw
        have hall := write_loop_true enc_units [] o hl
        constructor
        · intro hst
          exact absurd hw.1.symm hst
        · rintro ⟨u, hu, hr⟩
          rw [hall u hu] at hr
          simp at hr
  · simp [write, write_loop_first_rejected enc_units k u [] hk hu hpre]
  · obtain ⟨r, o, hro⟩ := write_loop_isSome enc_units [] hlen
    cases r
    · exact ⟨-1, o, by simp [write, hro]⟩
    · exact ⟨0, o ++ (encode enc_unit 0x0A).octets.take (encode enc_unit 0x0A).len, by
        simp [write, hro]⟩

theorem write_failure_witness :
    write true ⟨0, 0, 0, 0, 0⟩ [⟨0x41, 0, 0, 0, 1⟩, ⟨0xE2, 0x41, 0xAC, 0, 3⟩, ⟨0x42, 0, 0, 0, 1⟩] =
      some (-1, some [0x41]) :=
  (write_failure ⟨0, 0, 0, 0, 0⟩
    [⟨0x41, 0, 0, 0, 1⟩, ⟨0xE2, 0x41, 0xAC, 0, 3⟩, ⟨0x42, 0, 0, 0, 1⟩]).2.1 1
    ⟨0xE2, 0x41, 0xAC, 0, 3⟩ rfl (by decide) (by decide)

/-! ## Only the first `len` octets of a unit matter -/

theorem valid_congr (u v : enc_unit_t) (hlen : u.len = v.len) (h4 : u.len ≤ 4)
    (hoct : u.octets.take u.len = v.octets.take v.len) : valid u = valid v := by
  have hcases : u.len = 0 ∨ u.len = 1 ∨ u.len = 2 ∨ u.len = 3 ∨ u.len = 4 := by omega
  rcases hcases with h | h | h | h | h <;> have h' := hlen ▸ h <;>
    simp only [h, h', enc_unit_t.octets, List.take, List.cons.injEq, and_true] at hoct
  · rw [valid_zero u h, valid_zero v h']
  · rw [valid_one u h, valid_one v h', hoct]
  · rw [valid_two u h, valid_two v h', hoct.1, hoct.2]
  · rw [valid_three u h, valid_three v h', hoct.1, hoct.2.1, hoct.2.2]
  · rw [valid_four u h, valid_four v h', hoct.1, hoct.2.1, hoct.2.2.1, hoct.2.2.2]

theorem decode_congr (u v : enc_unit_t) (hlen : u.len = v.len) (h4 : u.len ≤ 4)
    (hoct : u.octets.take u.len = v.octets.take v.len) : decode u = decode v := by
  have hval := valid_congr u v hlen h4 hoct
  obtain ⟨r, hr⟩ := valid_isSome u h4
  have hr' : valid v = some r := hval ▸ hr
  cases r
  · rw [decode_of_invalid u hr, decode_of_invalid v hr']
  · have hcases : u.len = 1 ∨ u.len = 2 ∨ u.len = 3 ∨ u.len = 4 := by
      have := len_of_valid u hr
      omega
    rcases hcases with h | h | h | h <;> have h' := hlen ▸ h <;>
      simp only [h, h', enc_unit_t.octets, List.take, List.cons.injEq, and_true] at hoct
    · rw [decode_one u h hr, decode_one v h' hr', hoct]
    · rw [decode_two u h hr, decode_two v h' hr', hoct.1, hoct.2]
    · rw [decode_three u h hr, decode_three v h' hr', hoct.1, hoct.2.1, hoct.2.2]
    · rw [decode_four u h hr, decode_four v h' hr', hoct.1, hoct.2.1, hoct.2.2.1, hoct.2.2.2]

/-- The octets that `encode` assigns do not depend on the initial content of its local. -/
theorem encode_octets_take (j j' : enc_unit_t) (cp : Nat) :
    (encode j cp).octets.take (encode j cp).len =
      (encode j' cp).octets.take (encode j' cp).len := by
  by_cases hv : cp ≤ 0x10FFFF ∧ ¬ (0xD800 ≤ cp ∧ cp ≤ 0xDFFF)
  · rcases code_point_ranges cp hv.1 hv.2 with h | h | h | h
    · rw [encode_one j cp h, encode_one j' cp h]
      all_goals rfl
    · rw [encode_two j cp h, encode_two j' cp h]
      all_goals rfl
    · rw [encode_three j cp h, encode_three j' cp h]
      all_goals rfl
    · rw [encode_four j cp h, encode_four j' cp h]
  · have h0 : num_of_units cp = 0 := (num_of_units_eq_zero cp).2 (by omega)
    rw [encode_zero j cp h0, encode_zero j' cp h0]
    rfl

/-! ## One iteration of the scan of `read` -/

/-- Copying up to four octets that lie inside the buffer succeeds, keeps `len` and puts these
octets at the front of `units`. -/
theorem memcpy_spec (pre bs post : List Octet) (e : enc_unit_t) (h4 : bs.length ≤ 4) :
    ∃ e', memcpy (pre ++ (bs ++ post)) pre.length bs.length 0 e = some e' ∧
      e'.len = e.len ∧ e'.octets.take bs.length = bs := by
  have hget : ∀ k, k < bs.length → (pre ++ (bs ++ post))[pre.length + k]? = bs[k]? := by
    intro k hk
    rw [List.getElem?_append_right (by omega), Nat.add_sub_cancel_left,
      List.getElem?_append_left hk]
  match bs, h4, hget with
  | [], _, _ => exact ⟨e, rfl, rfl, rfl⟩
  | [b0], _, hget =>
    have g0 := hget 0 (by simp)
    simp only [List.length_singleton, List.getElem?_cons_zero] at g0 ⊢
    exact ⟨{ e with units0 := b0 }, by simp only [memcpy, g0, enc_unit_t.set_units], rfl, rfl⟩
  | [b0, b1], _, hget =>
    have g0 := hget 0 (by simp)
    have g1 := hget 1 (by simp)
    simp only [List.length_cons, List.length_nil, List.getElem?_cons_zero,
      List.getElem?_cons_succ] at g0 g1 ⊢
    exact ⟨{ e with units0 := b0, units1 := b1 }, by
      simp only [memcpy, g0, g1, enc_unit_t.set_units, Nat.zero_add], rfl, rfl⟩
  | [b0, b1, b2], _, hget =>
    have g0 := hget 0 (by simp)
    have g1 := hget 1 (by simp)
    have g2 := hget 2 (by simp)
    simp only [List.length_cons, List.length_nil, List.getElem?_cons_zero,
      List.getElem?_cons_succ] at g0 g1 g2 ⊢
    exact ⟨{ e with units0 := b0, units1 := b1, units2 := b2 }, by
      simp only [memcpy, g0, g1, g2, enc_unit_t.set_units, Nat.zero_add], rfl, rfl⟩
  | [b0, b1, b2, b3], _, hget =>
    have g0 := hget 0 (by simp)
    have g1 := hget 1 (by simp)
    have g2 := hget 2 (by simp)
    have g3 := hget 3 (by simp)
    simp only [List.length_cons, List.length_nil, List.getElem?_cons_zero,
      List.getElem?_cons_succ] at g0 g1 g2 g3 ⊢
    exact ⟨{ e with units0 := b0, units1 := b1, units2 := b2, units3 := b3 }, by
      simp only [memcpy, g0, g1, g2, g3, enc_unit_t.set_units, Nat.zero_add], rfl, rfl⟩
  | _ :: _ :: _ :: _ :: _ :: _, h4, _ => simp at h4

theorem encode_octets_length (j : enc_unit_t) (cp : Nat) :
    ((encode j cp).octets.take (encode j cp).len).length = num_of_units cp := by
  have := num_of_units_le cp
  simp only [List.length_take, enc_unit_t.octets, List.length_cons, List.length_nil, encode_len]
  omega

/-- One iteration of the scan at the encoding of a valid code point: the code point is stored at
index `n_elems`, the count goes up by one and the cursor moves past the encoding. -/
theorem read_loop_step (j : enc_unit_t) (cp : Nat) (hmax : cp ≤ 0x10FFFF)
    (hsur : ¬ (0xD800 ≤ cp ∧ cp ≤ 0xDFFF)) (pre post : List Octet) (fuel : Nat) (s : read_state)
    (hi : s.i = pre.length) (n : Nat) (hn : s.n_elems = some n)
    (hlt : n < s.code_points.length) :
    ∃ e, read_loop (pre ++ ((encode j cp).octets.take (encode j cp).len ++ post)) (fuel + 1) s =
      read_loop (pre ++ ((encode j cp).octets.take (encode j cp).len ++ post)) fuel
        ⟨pre.length + num_of_units cp, e, s.code_points.set n (some cp), some (n + 1)⟩ := by
  have hL1 : 1 ≤ num_of_units cp := by
    have := num_of_units_eq_zero cp
    omega
  have hL4 := num_of_units_le cp
  have hBlen := encode_octets_length j cp
  have hlo := length_of_encode j cp hmax hsur
  have hb0 : (pre ++ ((encode j cp).octets.take (encode j cp).len ++ post))[s.i]? =
      some (encode j cp).units0 := by
    rw [hi, List.getElem?_append_right (Nat.le_refl _), Nat.sub_self,
      List.getElem?_append_left (by omega), List.getElem?_take, if_pos (by rw [encode_len]; omega)]
    rfl
  obtain ⟨e', hcpy, hlen', htake⟩ := memcpy_spec pre
    ((encode j cp).octets.take (encode j cp).len) post
    ⟨(encode j cp).units0, s.enc_unit.units1, s.enc_unit.units2, s.enc_unit.units3,
      num_of_units cp⟩ (by omega)
  rw [hBlen] at hcpy htake
  have hlen'' : e'.len = num_of_units cp := hlen'
  have hdec : decode e' = some cp := by
    rw [decode_congr e' (encode j cp) (by rw [hlen'', encode_len]) (by omega)
      (by rw [hlen'', htake]), decode_encode_eq j cp hmax hsur]
  have hne : cp ≠ INVALID_CODE_POINT := by
    unfold INVALID_CODE_POINT
    omega
  refine ⟨e', ?_⟩
  rw [read_loop]
  rw [hi] at hb0
  have c1 : ¬ num_of_units cp = 0 := by omega
  have c2 : ¬ pre.length + num_of_units cp - 1 >
      (pre ++ ((encode j cp).octets.take (encode j cp).len ++ post)).length := by
    simp only [List.length_append, hBlen]
    omega
  simp only [hi, hb0, hlo, c1, c2, hcpy, hdec, hne, hn, hlt, hlen'', if_true, if_false]

/-! ## The scan of `read` over a sequence of encodings -/

theorem set_take_drop (l mid : List (Option Nat)) (n k : Nat) (v : Option Nat)
    (hn : n + 1 + k ≤ l.length) :
    (l.set n v).take (n + 1) ++ mid ++ (l.set n v).drop (n + 1 + k) =
      l.take n ++ v :: mid ++ l.drop (n + (k + 1)) := by
  have h1 : (l.set n v).take (n + 1) = l.take n ++ [v] := by
    rw [List.take_succ, List.getElem?_set_self (by omega), List.set_take,
      List.set_eq_of_length_le (by simp)]
    rfl
  have h2 : (l.set n v).drop (n + 1 + k) = l.drop (n + (k + 1)) := by
    rw [List.drop_set, if_pos (by omega)]
    congr 1
    omega
  rw [h1, h2]
  simp

theorem read_loop_at_end (buffer : List Octet) (fuel : Nat) (s : read_state)
    (hi : s.i = buffer.length) : read_loop buffer fuel s = Run.returns (true, s) := by
  have hnone : buffer[s.i]? = none := by
    rw [hi]
    exact List.getElem?_eq_none (Nat.le_refl _)
  cases fuel <;> rw [read_loop] <;> simp only [hnone]

/-- The scan over the encodings of valid code points stores them in order from index `n_elems`
on, adds their number to the count and leaves the loop at the end of the buffer, within a budget
of one iteration per code point. -/
theorem read_loop_encoded (j : enc_unit_t) (cps : List Nat)
    (hcps : ∀ cp ∈ cps, cp ≤ 0x10FFFF ∧ ¬ (0xD800 ≤ cp ∧ cp ≤ 0xDFFF)) (pre : List Octet)
    (fuel : Nat) (hfuel : cps.length ≤ fuel) (s : read_state) (hi : s.i = pre.length) (n : Nat)
    (hn : s.n_elems = some n) (hlt : n + cps.length ≤ s.code_points.length) :
    ∃ e, read_loop
        (pre ++ cps.flatMap fun cp => (encode j cp).octets.take (encode j cp).len) fuel s =
      Run.returns (true,
        ⟨(pre ++ cps.flatMap fun cp => (encode j cp).octets.take (encode j cp).len).length, e,
          s.code_points.take n ++ cps.map some ++ s.code_points.drop (n + cps.length),
          some (n + cps.length)⟩) := by
  induction cps generalizing pre fuel s n with
  | nil =>
    refine ⟨s.enc_unit, ?_⟩
    rw [read_loop_at_end _ _ _ (by simpa using hi)]
    cases s
    simp only [List.flatMap_nil, List.append_nil, List.map_nil, List.length_nil, Nat.add_zero,
      List.take_append_drop] at hi hn ⊢
    rw [hi, hn]
  | cons cp rest ih =>
    obtain ⟨fuel, rfl⟩ : ∃ f, fuel = f + 1 := ⟨fuel - 1, by simp at hfuel; omega⟩
    have hcp := hcps cp (List.mem_cons_self cp rest)
    have hrest : ∀ c ∈ rest, c ≤ 0x10FFFF ∧ ¬ (0xD800 ≤ c ∧ c ≤ 0xDFFF) :=
      fun c hc => hcps c (List.mem_cons_of_mem cp hc)
    simp only [List.length_cons] at hfuel hlt
    obtain ⟨e1, hstep⟩ := read_loop_step j cp hcp.1 hcp.2 pre
      (rest.flatMap fun cp => (encode j cp).octets.take (encode j cp).len) fuel s hi n hn
      (by omega)
    obtain ⟨e2, hih⟩ := ih hrest (pre ++ (encode j cp).octets.take (encode j cp).len) fuel
      (by omega)
      ⟨pre.length + num_of_units cp, e1, s.code_points.set n (some cp), some (n + 1)⟩
      (by simp only [List.length_append, encode_octets_length]) (n + 1) rfl
      (by simp only [List.length_set]; omega)
    refine ⟨e2, ?_⟩
    simp only [List.flatMap_cons, List.append_assoc] at hstep hih ⊢
    rw [hstep, hih]
    simp only [List.map_cons, List.length_cons]
    have hnat : n + 1 + rest.length = n + (rest.length + 1) := by omega
    have hset := set_take_drop s.code_points (rest.map some) n rest.length (some cp) (by omega)
    simp only [List.append_assoc, List.cons_append] at hset
    rw [hset, hnat]
    rfl

/-! ## Writing then reading -/

theorem zipWith_encode_octets (j0 : enc_unit_t) (junks : List enc_unit_t) (cps : List Nat)
    (hj : junks.length = cps.length) :
    ((List.zipWith encode junks cps).flatMap fun u => u.octets.take u.len) =
      cps.flatMap fun cp => (encode j0 cp).octets.take (encode j0 cp).len := by
  induction cps generalizing junks with
  | nil => simp
  | cons cp rest ih =>
    cases junks with
    | nil => simp at hj
    | cons j js =>
      simp only [List.length_cons, Nat.add_right_cancel_iff] at hj
      simp only [List.zipWith_cons_cons, List.flatMap_cons, ih js hj,
        encode_octets_take j j0 cp]

theorem zipWith_encode_valid (junks : List enc_unit_t) (cps : List Nat)
    (hcps : ∀ cp ∈ cps, cp ≤ 0x10FFFF ∧ ¬ (0xD800 ≤ cp ∧ cp ≤ 0xDFFF)) :
    ∀ u ∈ List.zipWith encode junks cps, valid u = some true := by
  induction cps generalizing junks with
  | nil => simp
  | cons cp rest ih =>
    cases junks with
    | nil => simp
    | cons j js =>
      intro u hu
      simp only [List.zipWith_cons_cons, List.mem_cons] at hu
      rcases hu with rfl | hu
      · exact valid_encode j cp (hcps cp (List.mem_cons_self cp rest)).1
          (hcps cp (List.mem_cons_self cp rest)).2
      · exact ih js (fun c hc => hcps c (List.mem_cons_of_mem cp hc)) u hu

theorem encoded_length (j : enc_unit_t) (cps : List Nat) :
    (cps.flatMap fun cp => (encode j cp).octets.take (encode j cp).len).length =
      (cps.map num_of_units).sum := by
  induction cps with
  | nil => rfl
  | cons cp rest ih =>
    simp only [List.flatMap_cons, List.length_append, encode_octets_length, ih, List.map_cons,
      List.sum_cons]

theorem length_le_encoded_size (cps : List Nat)
    (hcps : ∀ cp ∈ cps, cp ≤ 0x10FFFF ∧ ¬ (0xD800 ≤ cp ∧ cp ≤ 0xDFFF)) :
    cps.length ≤ (cps.map num_of_units).sum := by
  induction cps with
  | nil => simp
  | cons cp rest ih =>
    have h := hcps cp (List.mem_cons_self cp rest)
    have h0 := num_of_units_eq_zero cp
    have := ih fun c hc => hcps c (List.mem_cons_of_mem cp hc)
    simp only [List.length_cons, List.map_cons, List.sum_cons]
    omega

/-- C2, amended: write/read round trip. For every finite list `cps` of code points, each in
`[0, 0x10FFFF]` and outside `[0xD800, 0xDFFF]`, whose encodings together with the line feed
that `write` appends take at most 512 MiB (total encoded size plus 1 at most
`MAX_BUFFER_SIZE`): `write` on the units `encode cp`, `cp` in `cps`, returns 0, and `read` on
the octets it wrote, called with a count of 0, returns an array that holds exactly `cps`
followed by `0x0A` (its other slots are left unassigned) with a count of `length cps + 1`. -/
theorem write_read_round_trip (junks : List enc_unit_t) (lf enc_unit : enc_unit_t)
    (cps : List Nat) (hj : junks.length = cps.length)
    (hcps : ∀ cp ∈ cps, cp ≤ 0x10FFFF ∧ ¬ (0xD800 ≤ cp ∧ cp ≤ 0xDFFF))
    (hsize : (cps.map num_of_units).sum + 1 ≤ MAX_BUFFER_SIZE) :
    ∃ bytes, write true lf (List.zipWith encode junks cps) = some (0, some bytes) ∧
      bytes.length = (cps.map num_of_units).sum + 1 ∧
      read (some bytes) (some 0) enc_unit =
        Run.returns
          ⟨some ((cps ++ [0x0A]).map some ++
            List.replicate (bytes.length - (cps.length + 1)) none),
            some (cps.length + 1)⟩ := by
  have hw := write_of_accepted lf (List.zipWith encode junks cps)
    (zipWith_encode_valid junks cps hcps)
  rw [zipWith_encode_octets lf junks cps hj] at hw
  have hlf : ([0x0A] : List Octet) =
      [0x0A].flatMap fun cp => (encode lf cp).octets.take (encode lf cp).len := by
    simp only [List.flatMap_cons, List.flatMap_nil, List.append_nil, line_feed_octets]
  have hcps' : ∀ cp ∈ cps ++ [0x0A], cp ≤ 0x10FFFF ∧ ¬ (0xD800 ≤ cp ∧ cp ≤ 0xDFFF) := by
    intro cp hcp
    rcases List.mem_append.1 hcp with h | h
    · exact hcps cp h
    · simp only [List.mem_singleton] at h
      subst h
      omega
  have hlen : ((cps ++ [0x0A]).flatMap fun cp =>
      (encode lf cp).octets.take (encode lf cp).len).length =
      (cps.map num_of_units).sum + 1 := by
    rw [encoded_length]
    simp [num_of_units]
  have hcount := length_le_encoded_size cps hcps
  rw [hlf, ← List.flatMap_append] at hw
  refine ⟨_, hw, hlen, ?_⟩
  obtain ⟨e, hloop⟩ := read_loop_encoded lf (cps ++ [0x0A]) hcps' []
    ((cps.map num_of_units).sum + 1) (by simp only [List.length_append, List.length_singleton]; omega)
    ⟨0, enc_unit, List.replicate ((cps.map num_of_units).sum + 1) none, some 0⟩ rfl 0 rfl
    (by simp only [List.length_append, List.length_singleton, List.length_replicate]; omega)
  simp only [List.nil_append] at hloop
  have hsz : ¬ ((cps.map num_of_units).sum + 1 > MAX_BUFFER_SIZE ∨
      (cps.map num_of_units).sum + 1 = 0) := by omega
  simp only [read, hlen, hsz, if_false, hloop]
  simp only [List.take_zero, List.nil_append, Nat.zero_add, List.drop_replicate,
    List.length_append, List.length_singleton]
  simp

theorem write_read_round_trip_witness :
    (∃ bytes,
      write true ⟨0, 0, 0, 0, 0⟩
          (List.zipWith encode [⟨1, 2, 3, 4, 5⟩, ⟨6, 7, 8, 9, 10⟩, ⟨0, 0, 0, 0, 0⟩]
            [0x41, 0x20AC, 0x10000]) = some (0, some bytes) ∧
        bytes.length = ([0x41, 0x20AC, 0x10000].map num_of_units).sum + 1 ∧
        read (some bytes) (some 0) ⟨0xFF, 0xFF, 0xFF, 0xFF, 7⟩ =
          Run.returns
            ⟨some (([0x41, 0x20AC, 0x10000] ++ [0x0A]).map some ++
              List.replicate (bytes.length - (3 + 1)) none), some (3 + 1)⟩) ∧
    write true ⟨0, 0, 0, 0, 0⟩
        (List.zipWith encode [⟨1, 2, 3, 4, 5⟩, ⟨6, 7, 8, 9, 10⟩, ⟨0, 0, 0, 0, 0⟩]
          [0x41, 0x20AC, 0x10000]) =
      some (0, some [0x41, 0xE2, 0x82, 0xAC, 0xF0, 0x90, 0x80, 0x80, 0x0A]) ∧
    read (some [0x41, 0xE2, 0x82, 0xAC, 0xF0, 0x90, 0x80, 0x80, 0x0A]) (some 0)
        ⟨0xFF, 0xFF, 0xFF, 0xFF, 7⟩ =
      Run.returns
        ⟨some [some 0x41, some 0x20AC, some 0x10000, some 0x0A, none, none, none, none, none],
          some 4⟩ :=
  ⟨write_read_round_trip [⟨1, 2, 3, 4, 5⟩, ⟨6, 7, 8, 9, 10⟩, ⟨0, 0, 0, 0, 0⟩] ⟨0, 0, 0, 0, 0⟩
    ⟨0xFF, 0xFF, 0xFF, 0xFF, 7⟩ [0x41, 0x20AC, 0x10000] (by decide) (by decide) (by decide),
    by decide, by decide⟩

/-! ## Claims on the classifier table, the decoder formula and the unused octets -/

/-- C16: leading-octet classifier table. For every octet `b`, `length_of b` is 1 when `b` is in
`0x00..0x7F`, 2 when `b` is in `0xC0..0xDF`, 3 when `b` is in `0xE0..0xEF`, 4 when `b` is in
`0xF0..0xF7`, and 0 otherwise, that is on `0x80..0xBF` (`10xxxxxx`) and on `0xF8..0xFF`
(`11111xxx`); these five ranges cover every octet. -/
theorem length_of_table (b : Octet) :
    (b.val ≤ 0x7F → length_of b = 1) ∧
    (0xC0 ≤ b.val ∧ b.val ≤ 0xDF → length_of b = 2) ∧
    (0xE0 ≤ b.val ∧ b.val ≤ 0xEF → length_of b = 3) ∧
    (0xF0 ≤ b.val ∧ b.val ≤ 0xF7 → length_of b = 4) ∧
    ((0x80 ≤ b.val ∧ b.val ≤ 0xBF) ∨ (0xF8 ≤ b.val ∧ b.val ≤ 0xFF) → length_of b = 0) ∧
    (b.val ≤ 0x7F ∨ (0xC0 ≤ b.val ∧ b.val ≤ 0xDF) ∨ (0xE0 ≤ b.val ∧ b.val ≤ 0xEF) ∨
      (0xF0 ≤ b.val ∧ b.val ≤ 0xF7) ∨ (0x80 ≤ b.val ∧ b.val ≤ 0xBF) ∨
      (0xF8 ≤ b.val ∧ b.val ≤ 0xFF)) := by
  have hb := b.isLt
  rw [length_of_eq]
  refine ⟨fun h => ?_, fun h => ?_, fun h => ?_, fun h => ?_, fun h => ?_, by omega⟩ <;>
    split_ifs <;> omega

/-- C17: decoder reconstruction. For every unit `u` accepted by `valid`, `decode u` is the value
assembled from the free bits: `u0 & 0x7F` for length 1; `(u0 & 0x1F)*64 + (u1 & 0x3F)` for
length 2; `(u0 & 0x0F)*4096 + (u1 & 0x3F)*64 + (u2 & 0x3F)` for length 3;
`(u0 & 0x07)*262144 + (u1 & 0x3F)*4096 + (u2 & 0x3F)*64 + (u3 & 0x3F)` for length 4, and the
length is one of these four. The unit `[0xE2, 0x82, 0xAC]` of length 3 decodes to `0x20AC`. -/
theorem decode_reconstruction (u : enc_unit_t) (hv : valid u = some true) :
    (1 ≤ u.len ∧ u.len ≤ 4) ∧
    (u.len = 1 → decode u = some (u.units0.val &&& 0x7F)) ∧
    (u.len = 2 → decode u = some ((u.units0.val &&& 0x1F) * 64 + (u.units1.val &&& 0x3F))) ∧
    (u.len = 3 → decode u = some ((u.units0.val &&& 0x0F) * 4096 +
      (u.units1.val &&& 0x3F) * 64 + (u.units2.val &&& 0x3F))) ∧
    (u.len = 4 → decode u = some ((u.units0.val &&& 0x07) * 262144 +
      (u.units1.val &&& 0x3F) * 4096 + (u.units2.val &&& 0x3F) * 64 +
      (u.units3.val &&& 0x3F))) ∧
    (∀ units3, decode ⟨0xE2, 0x82, 0xAC, units3, 3⟩ = some 0x20AC) := by
  have e7F : ∀ x : Nat, x &&& 0x7F = x % 128 := land_MASK11
  have e1F : ∀ x : Nat, x &&& 0x1F = x % 32 := land_MASK12
  have e0F : ∀ x : Nat, x &&& 0x0F = x % 16 := land_MASK13
  have e07 : ∀ x : Nat, x &&& 0x07 = x % 8 := land_MASK14
  have e3F : ∀ x : Nat, x &&& 0x3F = x % 64 := land_MASKX
  refine ⟨len_of_valid u hv, fun h => ?_, fun h => ?_, fun h => ?_, fun h => ?_, fun units3 => ?_⟩
  · rw [decode_one u h hv, e7F]
  · rw [decode_two u h hv, e1F, e3F]
  · rw [decode_three u h hv, e0F, e3F, e3F]
  · rw [decode_four u h hv, e07, e3F, e3F, e3F]
  · rw [decode_three _ rfl (by rw [valid_three _ rfl]; rfl)]
    show some ((0xE2 : Octet).val % 16 * 4096 + (0x82 : Octet).val % 64 * 64 +
      (0xAC : Octet).val % 64) = some 0x20AC
    decide

theorem decode_reconstruction_witness :
    (1 ≤ (⟨0xE2, 0x82, 0xAC, 0, 3⟩ : enc_unit_t).len ∧
      (⟨0xE2, 0x82, 0xAC, 0, 3⟩ : enc_unit_t).len ≤ 4) ∧
    decode ⟨0xE2, 0x82, 0xAC, 0, 3⟩ =
      some (((0xE2 : Octet).val &&& 0x0F) * 4096 + ((0x82 : Octet).val &&& 0x3F) * 64 +
        ((0xAC : Octet).val &&& 0x3F)) ∧
    decode ⟨0xE2, 0x82, 0xAC, 0, 3⟩ = some 0x20AC :=
  have h := decode_reconstruction ⟨0xE2, 0x82, 0xAC, 0, 3⟩ (by decide)
  ⟨h.1, h.2.2.2.1 rfl, h.2.2.2.2.2 0⟩

/-- C18: unused octets are never read. Two encoding units with the same `len`, at most 4, and
the same octets at the indices below `len` get the same result from `valid` and the same value
from `decode`; every unit with `len = 0` is rejected by `valid` and decoded to
`INVALID_CODE_POINT`, whatever its four octets contain. -/
theorem unused_octets_not_read (u v : enc_unit_t) (hlen : u.len = v.len) (h4 : u.len ≤ 4)
    (hoct : u.octets.take u.len = v.octets.take v.len) :
    valid u = valid v ∧ decode u = decode v ∧
    (∀ b0 b1 b2 b3 : Octet, valid ⟨b0, b1, b2, b3, 0⟩ = some false ∧
      decode ⟨b0, b1, b2, b3, 0⟩ = some INVALID_CODE_POINT) :=
  ⟨valid_congr u v hlen h4 hoct, decode_congr u v hlen h4 hoct, fun _ _ _ _ =>
    ⟨valid_zero _ rfl, decode_of_invalid _ (valid_zero _ rfl)⟩⟩

theorem unused_octets_not_read_witness :
    valid ⟨0xC3, 0xA9, 0x00, 0x00, 2⟩ = valid ⟨0xC3, 0xA9, 0xFF, 0x41, 2⟩ ∧
    decode ⟨0xC3, 0xA9, 0x00, 0x00, 2⟩ = decode ⟨0xC3, 0xA9, 0xFF, 0x41, 2⟩ ∧
    (∀ b0 b1 b2 b3 : Octet, valid ⟨b0, b1, b2, b3, 0⟩ = some false ∧
      decode ⟨b0, b1, b2, b3, 0⟩ = some INVALID_CODE_POINT) :=
  unused_octets_not_read ⟨0xC3, 0xA9, 0x00, 0x00, 2⟩ ⟨0xC3, 0xA9, 0xFF, 0x41, 2⟩ rfl
    (by decide) (by decide)

/-! ## The encoding-unit invariant, and decoding then encoding -/

/-- C15: encoding-unit invariant. For every code point value `cp`, `encode cp` either has `len`
0 or is accepted by `valid`; its `len` is at most 4, and whenever it is in `1..4`, every octet
at an index in `1..len-1` is of the form `10xxxxxx` (`0x80..0xBF`) and octet 0 carries exactly
the prefix of the length (`0x00..0x7F`, `0xC0..0xDF`, `0xE0..0xEF`, `0xF0..0xF7`). -/
theorem encode_unit_invariant (enc_unit : enc_unit_t) (cp : Nat) :
    ((encode enc_unit cp).len = 0 ∨ valid (encode enc_unit cp) = some true) ∧
    (encode enc_unit cp).len ≤ 4 ∧
    (1 ≤ (encode enc_unit cp).len →
      (∀ i b, 1 ≤ i → i < (encode enc_unit cp).len → (encode enc_unit cp).units i = some b →
        0x80 ≤ b.val ∧ b.val ≤ 0xBF) ∧
      ((encode enc_unit cp).len = 1 → (encode enc_unit cp).units0.val ≤ 0x7F) ∧
      ((encode enc_unit cp).len = 2 →
        0xC0 ≤ (encode enc_unit cp).units0.val ∧ (encode enc_unit cp).units0.val ≤ 0xDF) ∧
      ((encode enc_unit cp).len = 3 →
        0xE0 ≤ (encode enc_unit cp).units0.val ∧ (encode enc_unit cp).units0.val ≤ 0xEF) ∧
      ((encode enc_unit cp).len = 4 →
        0xF0 ≤ (encode enc_unit cp).units0.val ∧ (encode enc_unit cp).units0.val ≤ 0xF7)) := by
  have h4 : (encode enc_unit cp).len ≤ 4 := by
    rw [encode_len]
    exact num_of_units_le cp
  have h0 := num_of_units_eq_zero cp
  by_cases hcp : cp ≤ 0x10FFFF ∧ ¬ (0xD800 ≤ cp ∧ cp ≤ 0xDFFF)
  · have hv := valid_encode enc_unit cp hcp.1 hcp.2
    exact ⟨Or.inr hv, h4, fun h1 => (valid_conditions _ ⟨h1, h4⟩).1 hv⟩
  · have hz : (encode enc_unit cp).len = 0 := by
      rw [encode_len]
      omega
    exact ⟨Or.inl hz, h4, fun h1 => by omega⟩

/-- C19, as stated, fails: the unit `[0xC0, 0x80]` of length 2 (an overlong form of 0) is
accepted by `valid` and decodes to 0, and `encode 0` has length 1, not 2; so decoding then
encoding is not the identity on the units that `valid` accepts. -/
theorem decode_then_encode_not_identity :
    (valid ⟨0xC0, 0x80, 0, 0, 2⟩ = some true ∧ decode ⟨0xC0, 0x80, 0, 0, 2⟩ = some 0 ∧
      (encode ⟨0, 0, 0, 0, 0⟩ 0).len = 1 ∧
      (encode ⟨0, 0, 0, 0, 0⟩ 0).octets.take 2 ≠
        (⟨0xC0, 0x80, 0, 0, 2⟩ : enc_unit_t).octets.take 2) ∧
    ¬ ∀ (j u : enc_unit_t) (cp : Nat), valid u = some true → decode u = some cp →
      (encode j cp).len = u.len ∧ (encode j cp).octets.take u.len = u.octets.take u.len := by
  refine ⟨by decide, fun h => ?_⟩
  have h1 := (h ⟨0, 0, 0, 0, 0⟩ ⟨0xC0, 0x80, 0, 0, 2⟩ 0 (by decide) (by decide)).1
  revert h1
  decide

theorem u8_eq_of_val (x : Nat) (b : Octet) (h : x = b.val) : u8 x = b := by
  apply Fin.ext
  have := b.isLt
  rw [u8_val, h]
  omega

/-- C19, amended: for every encoding unit `u` accepted by `valid` whose decoded value `cp`
takes exactly `u.len` units (`num_of_units cp = u.len`, the shortest form), `encode cp` has the
same `len` as `u` and the same octets at the indices `0..len-1`. -/
theorem decode_then_encode_shortest (enc_unit u : enc_unit_t) (cp : Nat)
    (hv : valid u = some true) (hd : decode u = some cp) (hshort : num_of_units cp = u.len) :
    (encode enc_unit cp).len = u.len ∧
      (encode enc_unit cp).octets.take u.len = u.octets.take u.len := by
  have hlen := len_of_valid u hv
  have hcases : u.len = 1 ∨ u.len = 2 ∨ u.len = 3 ∨ u.len = 4 := by omega
  have b0 := u.units0.isLt
  have b1 := u.units1.isLt
  have b2 := u.units2.isLt
  have b3 := u.units3.isLt
  rcases hcases with h | h | h | h
  · rw [decode_one u h hv, Option.some.injEq] at hd
    rw [valid_one u h, Option.some.injEq, decide_eq_true_eq] at hv
    rw [h, num_of_units_eq_one] at hshort
    rw [encode_one enc_unit cp hshort, h]
    refine ⟨rfl, ?_⟩
    simp only [enc_unit_t.octets, List.take, List.cons.injEq, and_true]
    exact u8_eq_of_val _ _ (by omega)
  · rw [decode_two u h hv, Option.some.injEq] at hd
    rw [valid_two u h, Option.some.injEq, decide_eq_true_eq] at hv
    rw [h, num_of_units_eq_two] at hshort
    rw [encode_two enc_unit cp hshort, h]
    refine ⟨rfl, ?_⟩
    simp only [enc_unit_t.octets, List.take, List.cons.injEq, and_true]
    exact ⟨u8_eq_of_val _ _ (by omega), u8_eq_of_val _ _ (by omega)⟩
  · rw [decode_three u h hv, Option.some.injEq] at hd
    rw [valid_three u h, Option.some.injEq, decide_eq_true_eq] at hv
    rw [h, num_of_units_eq_three] at hshort
    rw [encode_three enc_unit cp hshort, h]
    refine ⟨rfl, ?_⟩
    simp only [enc_unit_t.octets, List.take, List.cons.injEq, and_true]
    exact ⟨u8_eq_of_val _ _ (by omega), u8_eq_of_val _ _ (by omega),
      u8_eq_of_val _ _ (by omega)⟩
  · rw [decode_four u h hv, Option.some.injEq] at hd
    rw [valid_four u h, Option.some.injEq, decide_eq_true_eq] at hv
    rw [h, num_of_units_eq_four] at hshort
    rw [encode_four enc_unit cp hshort, h]
    refine ⟨rfl, ?_⟩
    simp only [enc_unit_t.octets, List.take, List.cons.injEq, and_true]
    exact ⟨u8_eq_of_val _ _ (by omega), u8_eq_of_val _ _ (by omega),
      u8_eq_of_val _ _ (by omega), u8_eq_of_val _ _ (by omega)⟩

theorem decode_then_encode_shortest_witness :
    (encode ⟨9, 9, 9, 9, 9⟩ 0x20AC).len = (⟨0xE2, 0x82, 0xAC, 0, 3⟩ : enc_unit_t).len ∧
      (encode ⟨9, 9, 9, 9, 9⟩ 0x20AC).octets.take (⟨0xE2, 0x82, 0xAC, 0, 3⟩ : enc_unit_t).len =
        (⟨0xE2, 0x82, 0xAC, 0, 3⟩ : enc_unit_t).octets.take
          (⟨0xE2, 0x82, 0xAC, 0, 3⟩ : enc_unit_t).len :=
  decode_then_encode_shortest ⟨9, 9, 9, 9, 9⟩ ⟨0xE2, 0x82, 0xAC, 0, 3⟩ 0x20AC (by decide)
    (by decide) (by decide)

/-! ## Claims on the reader that the code breaks -/

/-- C11: `read` is not all-or-nothing. On the buffer `[0x41, 0x80]`, read with a count of 0, the
scan decodes `0x41`, then leaves by its error exit at the octet `0x80` (classified as length 0);
the test at `END` looks at the pointer `n_elems`, which is not null, so the array is not freed:
`read` returns the partly filled array `[0x41, _]` with a count of 1 instead of a null
result. -/
theorem read_returns_partial_sequence :
    read_loop [0x41, 0x80] 2 ⟨0, ⟨0, 0, 0, 0, 0⟩, [none, none], some 0⟩ =
      Run.returns (false, ⟨1, ⟨0x80, 0, 0, 0, 0⟩, [some 0x41, none], some 1⟩) ∧
    read (some [0x41, 0x80]) (some 0) ⟨0, 0, 0, 0, 0⟩ =
      Run.returns ⟨some [some 0x41, none], some 1⟩ := by
  decide

/-- C12: the truncation guard of `read` lets a unit through that is one octet short. On the
buffer `[0xC3]` (`sz = 1`) the octet at cursor 0 is classified as length 2, the guard
`i + len - 1 > sz` is `1 > 1`, false, and `memcpy` copies 2 octets from index 0, reading
`buffer[1]` outside the buffer; the same happens for `[0x41, 0xE2, 0x82]` at cursor 1. A unit
that is two octets short is stopped: the lone `0xE2` ending `[0x41, 0xE2]` makes the scan leave
by its error exit. -/
theorem read_truncation_guard_off_by_one :
    (length_of 0xC3 = 2 ∧ ¬ (0 + length_of 0xC3 - 1 > [(0xC3 : Octet)].length) ∧
      memcpy [0xC3] 0 2 0 ⟨0xC3, 0, 0, 0, 2⟩ = none ∧
      read (some [0xC3]) (some 0) ⟨0, 0, 0, 0, 0⟩ = Run.undefined) ∧
    read (some [0x41, 0xE2, 0x82]) (some 0) ⟨0, 0, 0, 0, 0⟩ = Run.undefined ∧
    read_loop [0x41, 0xE2] 2 ⟨0, ⟨0, 0, 0, 0, 0⟩, [none, none], some 0⟩ =
      Run.returns (false, ⟨1, ⟨0xE2, 0, 0, 0, 3⟩, [some 0x41, none], some 1⟩) := by
  decide

/-- C14: the count that `read` reports is not the number of code points it decoded when the
caller's variable did not hold 0. On the buffer `[0xC3, 0xA9]`, read with a count of 1, the scan
runs to the end of the buffer and decodes one code point, `0xE9`; it stores it at index 1,
leaves index 0 unassigned and reports a count of 2. On the buffer `[0x41]` with a count of 1,
the only code point is stored at index 1 of an array of one slot. -/
theorem read_count_not_reset :
    read_loop [0xC3, 0xA9] 2 ⟨0, ⟨0, 0, 0, 0, 0⟩, [none, none], some 1⟩ =
      Run.returns (true, ⟨2, ⟨0xC3, 0xA9, 0, 0, 2⟩, [none, some 0xE9], some 2⟩) ∧
    read (some [0xC3, 0xA9]) (some 1) ⟨0, 0, 0, 0, 0⟩ =
      Run.returns ⟨some [none, some 0xE9], some 2⟩ ∧
    read (some [0x41]) (some 1) ⟨0, 0, 0, 0, 0⟩ = Run.undefined := by
  decide

/-! ## One iteration of the scan of `read`, in general -/

/-- The body of the loop of `read` at a cursor inside the buffer. -/
theorem read_loop_succ (buffer : List Octet) (fuel : Nat) (s : read_state) (b : Octet)
    (hb : buffer[s.i]? = some b) :
    read_loop buffer (fuel + 1) s =
      if length_of b = 0 then
        Run.returns (false,
          { s with enc_unit := { s.enc_unit with units0 := b, len := length_of b } })
      else if s.i + length_of b - 1 > buffer.length then
        Run.returns (false,
          { s with enc_unit := { s.enc_unit with units0 := b, len := length_of b } })
      else
        match memcpy buffer s.i (length_of b) 0
            { s.enc_unit with units0 := b, len := length_of b } with
        | none => Run.undefined
        | some e =>
          match decode e with
          | none => Run.undefined
          | some cp =>
            if cp = INVALID_CODE_POINT then Run.returns (false, { s with enc_unit := e })
            else
              match s.n_elems with
              | none => Run.undefined
              | some n =>
                if n < s.code_points.length then
                  read_loop buffer fuel
                    ⟨s.i + e.len, e, s.code_points.set n (some cp), some (n + 1)⟩
                else Run.undefined := by
  rw [read_loop]
  simp only [hb]

theorem set_units_len (e e' : enc_unit_t) (j : Nat) (b : Octet)
    (h : e.set_units j b = some e') : e'.len = e.len := by
  unfold enc_unit_t.set_units at h
  split at h <;> cases h <;> rfl

theorem memcpy_len (buffer : List Octet) (i n j : Nat) (e e' : enc_unit_t)
    (h : memcpy buffer i n j e = some e') : e'.len = e.len := by
  induction n generalizing j e with
  | zero =>
    simp only [memcpy, Option.some.injEq] at h
    rw [← h]
  | succ n ih =>
    unfold memcpy at h
    rcases hb : buffer[i + j]? with _ | b
    · simp [hb] at h
    · rcases hs : e.set_units j b with _ | e1
      · simp [hb, hs] at h
      · simp only [hb, hs] at h
        rw [ih _ _ h, set_units_len e e1 j b hs]

/-- A `memcpy` that succeeds has read inside the buffer only. -/
theorem memcpy_bound (buffer : List Octet) (i n j : Nat) (e e' : enc_unit_t)
    (h : memcpy buffer i n j e = some e') : n = 0 ∨ i + j + n ≤ buffer.length := by
  induction n generalizing j e with
  | zero => exact Or.inl rfl
  | succ n ih =>
    right
    unfold memcpy at h
    rcases hb : buffer[i + j]? with _ | b
    · simp [hb] at h
    · rcases hs : e.set_units j b with _ | e1
      · simp [hb, hs] at h
      · simp only [hb, hs] at h
        have hlt : i + j < buffer.length := by
          by_contra hc
          rw [List.getElem?_eq_none (by omega)] at hb
          simp at hb
        rcases ih _ _ h with h0 | h1 <;> omega

/-- A budget of one iteration per remaining octet is never used up: every iteration that goes
on moves the cursor forward. -/
theorem read_loop_terminates (buffer : List Octet) (fuel : Nat) (s : read_state)
    (hfuel : buffer.length - s.i ≤ fuel) : read_loop buffer fuel s ≠ Run.out_of_fuel := by
  induction fuel generalizing s with
  | zero =>
    have hnone : buffer[s.i]? = none := List.getElem?_eq_none (by omega)
    rw [read_loop]
    simp [hnone]
  | succ fuel ih =>
    rcases hb : buffer[s.i]? with _ | b
    · rw [read_loop]
      simp [hb]
    · rw [read_loop_succ buffer fuel s b hb]
      split_ifs with h0 hg
      · simp
      · simp
      · rcases hc : memcpy buffer s.i (length_of b) 0
            { s.enc_unit with units0 := b, len := length_of b } with _ | e
        · simp
        · have hlen : e.len = length_of b := memcpy_len _ _ _ _ _ _ hc
          rcases hd : decode e with _ | cp
          · simp [hd]
          · simp only [hd]
            split_ifs with hinv
            · simp
            · rcases hn : s.n_elems with _ | n
              · simp
              · simp only
                split_ifs with hlt
                · exact ih _ (by simp only; omega)
                · simp

/-- The scan keeps the count at most equal to the cursor, the cursor inside the buffer and the
size of the array: what holds when the loop is entered holds when it returns. -/
theorem read_loop_invariant (buffer : List Octet) (fuel : Nat) (s s' : read_state) (n : Nat)
    (ok : Bool) (hn : s.n_elems = some n) (hle : n ≤ s.i) (hi : s.i ≤ buffer.length)
    (hr : read_loop buffer fuel s = Run.returns (ok, s')) :
    ∃ n', s'.n_elems = some n' ∧ n' ≤ s'.i ∧ s'.i ≤ buffer.length ∧
      s'.code_points.length = s.code_points.length := by
  induction fuel generalizing s n with
  | zero =>
    rcases hb : buffer[s.i]? with _ | b
    · rw [read_loop] at hr
      simp only [hb, Run.returns.injEq, Prod.mk.injEq] at hr
      rw [← hr.2]
      exact ⟨n, hn, hle, hi, rfl⟩
    · rw [read_loop] at hr
      simp [hb] at hr
  | succ fuel ih =>
    rcases hb : buffer[s.i]? with _ | b
    · rw [read_loop] at hr
      simp only [hb, Run.returns.injEq, Prod.mk.injEq] at hr
      rw [← hr.2]
      exact ⟨n, hn, hle, hi, rfl⟩
    · rw [read_loop_succ buffer fuel s b hb] at hr
      split_ifs at hr with h0 hg
      · simp only [Run.returns.injEq, Prod.mk.injEq] at hr
        rw [← hr.2]
        exact ⟨n, hn, hle, hi, rfl⟩
      · simp only [Run.returns.injEq, Prod.mk.injEq] at hr
        rw [← hr.2]
        exact ⟨n, hn, hle, hi, rfl⟩
      · rcases hc : memcpy buffer s.i (length_of b) 0
            { s.enc_unit with units0 := b, len := length_of b } with _ | e
        · simp [hc] at hr
        · have hlen : e.len = length_of b := memcpy_len _ _ _ _ _ _ hc
          have hbound := memcpy_bound _ _ _ _ _ _ hc
          rcases hd : decode e with _ | cp
          · simp [hc, hd] at hr
          · simp only [hc, hd, hn] at hr
            split_ifs at hr with hinv hlt
            · simp only [Run.returns.injEq, Prod.mk.injEq] at hr
              rw [← hr.2]
              exact ⟨n, rfl, hle, hi, rfl⟩
            · obtain ⟨n', h1, h2, h3, h4⟩ := ih _ (n + 1) rfl (by simp only; omega)
                (by simp only; omega) hr
              exact ⟨n', h1, h2, h3, by rw [h4]; simp⟩

/-! ## Claims on the scan of `read` -/

/-- C13: the reader stops on malformed input. At every state of the scan whose cursor is inside
the buffer, on the octet `b`: `length_of b` is 0 exactly when `b` is in `0x80..0xBF` or in
`0xF8..0xFF`, and then the scan ends there by its error exit; and when the unit copied at the
cursor decodes to `INVALID_CODE_POINT` the scan ends there by its error exit. In both cases the
array, the count and the cursor are those the scan had on reaching this position: no code point
is appended for this octet or for any later one. -/
theorem read_stops_on_malformed (buffer : List Octet) (fuel : Nat) (s : read_state) (b : Octet)
    (hb : buffer[s.i]? = some b) :
    (length_of b = 0 ↔ (0x80 ≤ b.val ∧ b.val ≤ 0xBF) ∨ (0xF8 ≤ b.val ∧ b.val ≤ 0xFF)) ∧
    (length_of b = 0 →
      read_loop buffer (fuel + 1) s =
        Run.returns (false,
          ⟨s.i, { s.enc_unit with units0 := b, len := 0 }, s.code_points, s.n_elems⟩)) ∧
    (∀ e, length_of b ≠ 0 → ¬ (s.i + length_of b - 1 > buffer.length) →
      memcpy buffer s.i (length_of b) 0 { s.enc_unit with units0 := b, len := length_of b } =
        some e →
      decode e = some INVALID_CODE_POINT →
      read_loop buffer (fuel + 1) s =
        Run.returns (false, ⟨s.i, e, s.code_points, s.n_elems⟩)) := by
  refine ⟨?_, fun h0 => ?_, fun e h0 hg hc hd => ?_⟩
  · have hlt := b.isLt
    rw [length_of_eq]
    split_ifs <;> simp <;> omega
  · rw [read_loop_succ buffer fuel s b hb, if_pos h0, h0]
  · rw [read_loop_succ buffer fuel s b hb, if_neg h0, if_neg hg]
    simp only [hc, hd, if_true]

theorem read_stops_on_malformed_witness :
    read_loop [0x41, 0x80, 0x42] (1 + 1) ⟨1, ⟨0x41, 0, 0, 0, 1⟩, [some 0x41, none, none], some 1⟩ =
      Run.returns (false, ⟨1, ⟨0x80, 0, 0, 0, 0⟩, [some 0x41, none, none], some 1⟩) ∧
    read_loop [0x41, 0xC3, 0x42] (1 + 1) ⟨1, ⟨0x41, 0, 0, 0, 1⟩, [some 0x41, none, none], some 1⟩ =
      Run.returns (false, ⟨1, ⟨0xC3, 0x42, 0, 0, 2⟩, [some 0x41, none, none], some 1⟩) ∧
    read (some [0x41, 0x80, 0x42]) (some 0) ⟨0, 0, 0, 0, 0⟩ =
      Run.returns ⟨some [some 0x41, none, none], some 1⟩ :=
  ⟨(read_stops_on_malformed [0x41, 0x80, 0x42] 1
      ⟨1, ⟨0x41, 0, 0, 0, 1⟩, [some 0x41, none, none], some 1⟩ 0x80 rfl).2.1 (by decide),
    (read_stops_on_malformed [0x41, 0xC3, 0x42] 1
      ⟨1, ⟨0x41, 0, 0, 0, 1⟩, [some 0x41, none, none], some 1⟩ 0xC3 rfl).2.2
      ⟨0xC3, 0x42, 0, 0, 2⟩ (by decide) (by decide) (by decide) (by decide),
    by decide⟩

/-- C20: reader output bound. For every buffer of `sz` octets: at a state of the scan whose
count is at most the cursor and whose array has `sz` slots, an iteration that appends a code
point stores it at an index inside the array, moves the cursor forward by at least 1 and keeps
the count at most the cursor; the scan ends within a budget of one iteration per octet, so
`read` terminates; and with the count starting at 0, `read` returns a count of at most `sz`
and, when it returns the array, an array of `sz` slots. -/
theorem read_output_bound (buffer : List Octet) :
    (∀ (fuel : Nat) (s : read_state) (n : Nat) (b : Octet) (e : enc_unit_t) (cp : Nat),
      s.n_elems = some n → n ≤ s.i → s.code_points.length = buffer.length →
      buffer[s.i]? = some b → length_of b ≠ 0 → ¬ (s.i + length_of b - 1 > buffer.length) →
      memcpy buffer s.i (length_of b) 0 { s.enc_unit with units0 := b, len := length_of b } =
        some e →
      decode e = some cp → cp ≠ INVALID_CODE_POINT →
      n < s.code_points.length ∧ 1 ≤ e.len ∧ n + 1 ≤ s.i + e.len ∧
        read_loop buffer (fuel + 1) s =
          read_loop buffer fuel
            ⟨s.i + e.len, e, s.code_points.set n (some cp), some (n + 1)⟩) ∧
    (∀ (fuel : Nat) (s : read_state), buffer.length - s.i ≤ fuel →
      read_loop buffer fuel s ≠ Run.out_of_fuel) ∧
    (∀ (n_elems : Option Nat) (enc_unit : enc_unit_t),
      read (some buffer) n_elems enc_unit ≠ Run.out_of_fuel) ∧
    (∀ (enc_unit : enc_unit_t) (r : read_result),
      read (some buffer) (some 0) enc_unit = Run.returns r →
      (∃ n, r.n_elems = some n ∧ n ≤ buffer.length) ∧
      (∀ code_points, r.code_points = some code_points →
        code_points.length = buffer.length)) := by
  refine ⟨fun fuel s n b e cp hn hle hsz hb h0 hg hc hd hcp => ?_,
    fun fuel s hfuel => read_loop_terminates buffer fuel s hfuel,
    fun n_elems enc_unit => ?_, fun enc_unit r hr => ?_⟩
  · have hi : s.i < buffer.length := by
      by_contra hc'
      rw [List.getElem?_eq_none (by omega)] at hb
      simp at hb
    have hlen : e.len = length_of b := memcpy_len _ _ _ _ _ _ hc
    refine ⟨by omega, by omega, by omega, ?_⟩
    rw [read_loop_succ buffer fuel s b hb, if_neg h0, if_neg hg]
    simp only [hc, hd, hcp, hn, if_false]
    rw [if_pos (by omega)]
  · by_cases hsz : buffer.length > MAX_BUFFER_SIZE ∨ buffer.length = 0
    · simp only [read, if_pos hsz]
      simp
    · have ht := read_loop_terminates buffer buffer.length
        ⟨0, enc_unit, List.replicate buffer.length none, n_elems⟩ (by simp)
      rcases hl : read_loop buffer buffer.length
          ⟨0, enc_unit, List.replicate buffer.length none, n_elems⟩ with ⟨ok, s'⟩ | _ | _
      · simp only [read, if_neg hsz, hl]
        by_cases hnull : n_elems = none
        · simp [hnull]
        · simp [hnull]
      · simp only [read, if_neg hsz, hl]
        simp
      · exact absurd hl ht
  · by_cases hsz : buffer.length > MAX_BUFFER_SIZE ∨ buffer.length = 0
    · simp only [read, if_pos hsz, Run.returns.injEq] at hr
      rw [← hr]
      exact ⟨⟨0, rfl, Nat.zero_le _⟩, fun _ h => by simp at h⟩
    · rcases hl : read_loop buffer buffer.length
          ⟨0, enc_unit, List.replicate buffer.length none, some 0⟩ with ⟨ok, s'⟩ | _ | _
      · obtain ⟨n', h1, h2, h3, h4⟩ := read_loop_invariant buffer buffer.length
          ⟨0, enc_unit, List.replicate buffer.length none, some 0⟩ s' 0 ok rfl
          (Nat.le_refl _) (Nat.zero_le _) hl
        simp only [read, if_neg hsz, hl, reduceCtorEq, if_false, Run.returns.injEq] at hr
        rw [← hr]
        refine ⟨⟨n', h1, by omega⟩, fun code_points h => ?_⟩
        simp only [Option.some.injEq] at h
        rw [← h, h4]
        simp
      · simp only [read, if_neg hsz, hl] at hr
        cases hr
      · simp only [read, if_neg hsz, hl] at hr
        cases hr

theorem read_output_bound_witness :
    read (some [0x41, 0xC3, 0xA9]) (some 0) ⟨0, 0, 0, 0, 0⟩ =
      Run.returns ⟨some [some 0x41, some 0xE9, none], some 2⟩ ∧
    (∃ n, (⟨some [some 0x41, some 0xE9, none], some 2⟩ : read_result).n_elems = some n ∧
      n ≤ [(0x41 : Octet), 0xC3, 0xA9].length) :=
  ⟨by decide,
    ((read_output_bound [0x41, 0xC3, 0xA9]).2.2.2 ⟨0, 0, 0, 0, 0⟩
      ⟨some [some 0x41, some 0xE9, none], some 2⟩ (by decide)).1⟩

/-! ## Writing then reading at the size ceiling -/

/-- When the encodings alone fill `MAX_BUFFER_SIZE` octets, the line feed that `write` appends
puts the written file one octet above the ceiling of `read`: `write` returns 0 and `read`
returns a null result and leaves the count untouched. -/
theorem write_read_over_ceiling (N : Nat) (hN : N = MAX_BUFFER_SIZE)
    (j lf enc_unit : enc_unit_t) :
    ∃ bytes,
      write true lf (List.zipWith encode (List.replicate N j) (List.replicate N 0x41)) =
        some (0, some bytes) ∧
      bytes.length = N + 1 ∧
      read (some bytes) (some 0) enc_unit = Run.returns ⟨none, some 0⟩ := by
  have hcps : ∀ cp ∈ List.replicate N 0x41, cp ≤ 0x10FFFF ∧ ¬ (0xD800 ≤ cp ∧ cp ≤ 0xDFFF) := by
    intro cp hcp
    have := List.eq_of_mem_replicate hcp
    omega
  have hw := write_of_accepted lf
    (List.zipWith encode (List.replicate N j) (List.replicate N 0x41))
    (zipWith_encode_valid _ _ hcps)
  rw [zipWith_encode_octets lf (List.replicate N j) (List.replicate N 0x41)
    (by rw [List.length_replicate, List.length_replicate])] at hw
  have h1 : num_of_units 0x41 = 1 := (num_of_units_eq_one 0x41).2 (by norm_num)
  have hlen : (((List.replicate N 0x41).flatMap fun cp =>
      (encode lf cp).octets.take (encode lf cp).len) ++ [0x0A]).length = N + 1 := by
    rw [List.length_append, encoded_length, List.map_replicate, h1, List.sum_replicate,
      List.length_singleton, smul_eq_mul, Nat.mul_one]
  refine ⟨_, hw, hlen, ?_⟩
  have hsz : (((List.replicate N 0x41).flatMap fun cp =>
      (encode lf cp).octets.take (encode lf cp).len) ++ [0x0A]).length > MAX_BUFFER_SIZE ∨
      (((List.replicate N 0x41).flatMap fun cp =>
        (encode lf cp).octets.take (encode lf cp).len) ++ [0x0A]).length = 0 := by
    left
    rw [hlen, hN]
    exact Nat.lt_succ_self _
  simp only [read, if_pos hsz]

/-- C2, as stated, fails at the size boundary. The list of `MAX_BUFFER_SIZE` (512 Mi) copies of
the code point `0x41` holds valid code points only and its total encoded size is exactly
512 MiB; `write` on its encodings returns 0 and writes 512 MiB + 1 octets, the line feed
included, and `read` on these octets, called with a count of 0, finds `sz > MAX_BUFFER_SIZE`
and returns a null result with the count still 0, not the code points and
`length cps + 1`. -/
theorem write_read_round_trip_fails_at_ceiling :
    (∀ cp ∈ List.replicate MAX_BUFFER_SIZE 0x41,
      cp ≤ 0x10FFFF ∧ ¬ (0xD800 ≤ cp ∧ cp ≤ 0xDFFF)) ∧
    ((List.replicate MAX_BUFFER_SIZE 0x41).map num_of_units).sum = MAX_BUFFER_SIZE ∧
    MAX_BUFFER_SIZE = 512 * 1024 * 1024 ∧
    ∃ bytes,
      write true ⟨0, 0, 0, 0, 0⟩
          (List.zipWith encode (List.replicate MAX_BUFFER_SIZE ⟨0, 0, 0, 0, 0⟩)
            (List.replicate MAX_BUFFER_SIZE 0x41)) = some (0, some bytes) ∧
        bytes.length = MAX_BUFFER_SIZE + 1 ∧
        read (some bytes) (some 0) ⟨0, 0, 0, 0, 0⟩ = Run.returns ⟨none, some 0⟩ := by
  refine ⟨fun cp hcp => ?_, ?_, rfl,
    write_read_over_ceiling MAX_BUFFER_SIZE rfl ⟨0, 0, 0, 0, 0⟩ ⟨0, 0, 0, 0, 0⟩
      ⟨0, 0, 0, 0, 0⟩⟩
  · have := List.eq_of_mem_replicate hcp
    omega
  · rw [List.map_replicate, (num_of_units_eq_one 0x41).2 (by norm_num), List.sum_replicate,
      smul_eq_mul, Nat.mul_one]

end Utf8
